import Mathlib

/-!
Verification development for the tree_print repository (src/tree_print/cli.py).

The Python program renders a filesystem directory as a textual tree. This file
gives a shallow embedding of the program over an explicit model of the
filesystem: a directory listing is a `List FSEntry`, an absolute path is the
list of its segments relative to the rendering root (the root itself is `[]`).
Entries carry their byte size; traversal, filtering, compaction, depth gating,
ordering and rendering are translated function by function from the source.

Modelling conventions, stated once:
* Python `pathlib.Path` values become segment lists (`List String`);
  `p.is_relative_to(q)` is segment-wise prefix, `item in git_tracked` is list
  membership, `p.is_file()` is a lookup in the modelled tree.
* Python `sorted` is a stable sort; it is embedded as a structurally recursive
  stable insertion sort (`py_sorted`), which agrees with every stable sort for
  the same total preorder comparator.
* `str.lower` is embedded as ASCII lowercasing and string comparison as
  code-point lexicographic comparison, which match CPython on ASCII names.
* The float produced by repeated `size /= 1024` in `human_readable_size` is
  modelled exactly as the rational n / 1024 ^ k, carried as the pair (n, k);
  f-string formatting with one decimal is round-half-even.
* Recursive walks over the tree are written with an explicit fuel argument so
  that every definition is structurally recursive and kernel-computable; the
  public wrappers pass `sizeOf` of the traversed data plus one, which is a
  strict upper bound on the recursion depth, so the fuel never runs out on the
  wrapped call (the zero-fuel branches are unreachable from the wrappers).
-/

/-- A filesystem entry as seen by `Path.iterdir`: a regular file with a byte
size, or a directory with its own listing. -/
inductive FSEntry where
  | file (name : String) (size : Nat)
  | dir (name : String) (children : List FSEntry)

/-- The bare name of an entry (`item.name` in the source). -/
def FSEntry.name : FSEntry → String
  | FSEntry.file n _ => n
  | FSEntry.dir n _ => n

/-- Embeds `item.is_file()` for entries read from a listing. -/
def FSEntry.isFile : FSEntry → Bool
  | FSEntry.file _ _ => true
  | FSEntry.dir _ _ => false

/-- Embeds `item.is_dir()` for entries read from a listing. -/
def FSEntry.isDir : FSEntry → Bool
  | FSEntry.file _ _ => false
  | FSEntry.dir _ _ => true

/-- The byte size of a regular file (`item.stat().st_size`), none for a
directory. -/
def FSEntry.sizeOpt : FSEntry → Option Nat
  | FSEntry.file _ s => some s
  | FSEntry.dir _ _ => none

mutual

/-- Node count of a tree, a strict bound on its nesting depth; it feeds the
fuel of the recursive walks. -/
def FSEntry.tsize : FSEntry → Nat
  | FSEntry.file _ _ => 1
  | FSEntry.dir _ ch => 1 + tsizeList ch

/-- Node count of a listing. -/
def tsizeList : List FSEntry → Nat
  | [] => 0
  | e :: es => FSEntry.tsize e + tsizeList es

end

/-- ASCII lowercasing of one character; CPython `str.lower` restricted to the
ASCII range. -/
def char_lower (c : Char) : Char :=
  if 65 ≤ c.toNat ∧ c.toNat ≤ 90 then Char.ofNat (c.toNat + 32) else c

/-- Embeds Python `s.lower()` (ASCII range). -/
def lower_name (s : String) : String := String.mk (s.data.map char_lower)

/-- Code-point lexicographic comparison of character lists, the order CPython
uses on `str`. -/
def char_list_le : List Char → List Char → Bool
  | [], _ => true
  | _ :: _, [] => false
  | a :: as, b :: bs => if a = b then char_list_le as bs else decide (a < b)

/-- Code-point lexicographic comparison of strings. -/
def str_le (s t : String) : Bool := char_list_le s.data t.data

/-- The sort comparator of `build_tree_lines`: the non-strict tuple order on
the key `(x.is_file(), x.name.lower())` used by `sorted`. -/
def key_le (a b : FSEntry) : Bool :=
  (!a.isFile && b.isFile) ||
    ((a.isFile == b.isFile) && str_le (lower_name a.name) (lower_name b.name))

/-- Stable insertion of one element into a sorted list; a tie keeps the
inserted element in front of the present ones. -/
def py_insert (le : FSEntry → FSEntry → Bool) (x : FSEntry) : List FSEntry → List FSEntry
  | [] => [x]
  | y :: ys => if le x y then x :: y :: ys else y :: py_insert le x ys

/-- Embeds Python `sorted(l, key=...)` through the comparator `le`: a stable
insertion sort, which produces the same list as every stable sort for the same
total preorder, in particular CPython sorted. -/
def py_sorted (le : FSEntry → FSEntry → Bool) : List FSEntry → List FSEntry
  | [] => []
  | x :: xs => py_insert le x (py_sorted le xs)

/-- Scans for the closing bracket of a glob character class; returns the class
content and the remaining pattern. Modelled from the Python stdlib: the scan of
`fnmatch.translate` for the `]` that closes a `[` class. -/
def glob_scan_class : List Char → Option (List Char × List Char)
  | [] => none
  | c :: cs =>
      if c = ']' then some ([], cs)
      else
        match glob_scan_class cs with
        | some (content, rest) => some (c :: content, rest)
        | none => none

/-- Splits a glob class body directly after `[` and an optional `!`: a leading
`]` belongs to the class content, as in `fnmatch.translate`. -/
def glob_class_body : List Char → Option (List Char × List Char)
  | [] => none
  | c :: cs =>
      if c = ']' then
        match glob_scan_class cs with
        | some (content, rest) => some (']' :: content, rest)
        | none => none
      else glob_scan_class (c :: cs)

/-- Parses a full glob class directly after the opening `[`: detects the
optional leading `!`, then splits off the class content; the returned triple is
(negated, content, remaining pattern). -/
def glob_parse_class : List Char → Option (Bool × List Char × List Char)
  | [] => none
  | '!' :: t =>
      match glob_class_body t with
      | some (content, rest) => some (true, content, rest)
      | none => none
  | c :: cs =>
      match glob_class_body (c :: cs) with
      | some (content, rest) => some (false, content, rest)
      | none => none

/-- Membership of a character in a glob class content, with `a-b` ranges by
code point; a `-` without both endpoints is literal, as in the regular
expression `fnmatch.translate` emits. -/
def glob_in_class : List Char → Char → Bool
  | a :: mid :: b :: rest, c =>
      if mid = '-' then (decide (a ≤ c) && decide (c ≤ b)) || glob_in_class rest c
      else a = c || glob_in_class (mid :: b :: rest) c
  | a :: rest, c => a = c || glob_in_class rest c
  | [], _ => false

/-- Shell-glob matching of a pattern against a whole name, translated from the
Python stdlib `fnmatch` semantics (`*`, `?`, `[...]` classes with leading `!`
negation, an unterminated `[` taken literally; POSIX `normcase` is the
identity). Every recursive call strictly decreases the summed length of the
pattern and the candidate, so the fuel passed by `glob_match` suffices. -/
def glob_match_go : Nat → List Char → List Char → Bool
  | 0, _, _ => false
  | fuel + 1, pat, str =>
      match pat, str with
      | [], [] => true
      | [], _ :: _ => false
      | '*' :: ps, [] => glob_match_go fuel ps []
      | '*' :: ps, c :: cs =>
          glob_match_go fuel ps (c :: cs) || glob_match_go fuel ('*' :: ps) cs
      | '?' :: ps, _ :: cs => glob_match_go fuel ps cs
      | '?' :: _, [] => false
      | '[' :: ps, s =>
          match glob_parse_class ps with
          | some (negated, content, rest) =>
              match s with
              | [] => false
              | c :: cs =>
                  (if negated then !glob_in_class content c else glob_in_class content c)
                    && glob_match_go fuel rest cs
          | none =>
              match s with
              | '[' :: cs => glob_match_go fuel ps cs
              | _ => false
      | p :: ps, c :: cs => p == c && glob_match_go fuel ps cs
      | _ :: _, [] => false

/-- Glob matching with sufficient fuel for the whole run. -/
def glob_match (pat str : List Char) : Bool :=
  glob_match_go (pat.length + str.length + 1) pat str

/-- Embeds `fnmatch.fnmatch(name, pat)` on POSIX. -/
def fnmatch_one (name pat : String) : Bool := glob_match pat.data name.data

/-- Embeds `matches_patterns` from the source:
`any(fnmatch.fnmatch(name, pat) for pat in patterns)`. -/
def matches_patterns (name : String) (patterns : List String) : Bool :=
  patterns.any (fun pat => fnmatch_one name pat)

/-- Resolves a path (list of segments) in a listing; used to model stat calls
on paths that are not the entries of the current directory. Duplicate names in
one directory cannot occur on a real filesystem; the model resolves to the
first entry carrying the segment name, as a disambiguation. -/
def fs_lookup : List FSEntry → List String → Option FSEntry
  | _, [] => none
  | entries, [n] => entries.find? (fun e => e.name == n)
  | entries, n :: rest =>
      match entries.find? (fun e => e.name == n) with
      | some (FSEntry.dir _ ch) => fs_lookup ch rest
      | _ => none

/-- Embeds `p.is_file()` for an arbitrary absolute path `p`: the path resolves
in the tree `fs` and denotes a regular file. -/
def is_file_path (fs : List FSEntry) (p : List String) : Bool :=
  match fs_lookup fs p with
  | some (FSEntry.file _ _) => true
  | _ => false

/-- The tracking filter of the source, applied to the absolute path `p` of a
candidate entry: when a tracked set is configured, keep the entry if it is a
member of the set, or if some tracked path that is a file has it as a
segment-wise prefix (`p2.is_relative_to(item)`); without a tracked set every
entry is kept (the source skips the filter entirely in that case). -/
def track_filter (fs : List FSEntry) (git : Option (List (List String)))
    (p : List String) : Bool :=
  match git with
  | none => true
  | some g => g.contains p || g.any (fun q => is_file_path fs q && p.isPrefixOf q)

/-- The loop condition of `collapse_single_dirs`: after exclusion filtering and
tracking filtering, the directory contains exactly one directory and no file. -/
def single_dir_condition (fs : List FSEntry) (path : List String)
    (entries : List FSEntry) (git : Option (List (List String)))
    (exclude : List String) : Bool :=
  let items0 := entries.filter (fun it => !matches_patterns it.name exclude)
  let items := items0.filter (fun it => track_filter fs git (path ++ [it.name]))
  ((items.filter FSEntry.isDir).length == 1) && (items.filter FSEntry.isFile).isEmpty

/-- Embeds the `while True` loop of `collapse_single_dirs`: as long as the
filtered listing holds exactly one directory and no file, descend into that
directory; the pair returned is the final path together with its listing.
Fuel decreases at each descent; the wrapper passes enough for any chain. -/
def collapse_go : Nat → List FSEntry → List String → List FSEntry →
    Option (List (List String)) → List String → List String × List FSEntry
  | 0, _, path, entries, _, _ => (path, entries)
  | fuel + 1, fs, path, entries, git, exclude =>
      let items0 := entries.filter (fun it => !matches_patterns it.name exclude)
      let items := items0.filter (fun it => track_filter fs git (path ++ [it.name]))
      match items.filter FSEntry.isDir, (items.filter FSEntry.isFile).isEmpty with
      | [FSEntry.dir n ch], true => collapse_go fuel fs (path ++ [n]) ch git exclude
      | _, _ => (path, entries)

/-- Embeds `collapse_single_dirs(path, git_tracked, exclude)` from the source;
the returned path is the collapsed start path and the returned listing is the
listing of that path. -/
def collapse_single_dirs (fs : List FSEntry) (path : List String)
    (entries : List FSEntry) (git : Option (List (List String)))
    (exclude : List String) : List String × List FSEntry :=
  collapse_go (tsizeList entries + 1) fs path entries git exclude

/-- The listing pipeline of `build_tree_lines`: enumerate children, drop names
matching an exclusion pattern, sort by the key `(is_file, lowercased name)`,
then (when a tracked set is configured) apply the tracking filter. The source
applies the tracking filter after sorting; filtering preserves order. -/
def surviving_children (fs : List FSEntry) (path : List String)
    (entries : List FSEntry) (exclude : List String)
    (git : Option (List (List String))) : List FSEntry :=
  let sortedItems := py_sorted key_le (entries.filter (fun it => !matches_patterns it.name exclude))
  sortedItems.filter (fun it => track_filter fs git (path ++ [it.name]))

/-- The data of one emitted line before string rendering: everything the
source interpolates into the f-string, plus the nesting level and the absolute
path of the entry, recorded for specification purposes. -/
structure LineRec where
  indent : String
  isLast : Bool
  name : String
  dirFlag : Bool
  fileSize : Option Nat
  level : Int
  epath : List String
deriving DecidableEq, Repr

/-- The per-child depth gate of the source:
`depth is not None and current_level >= depth`. -/
def depth_gate (depth : Option Int) (current_level : Int) : Bool :=
  match depth with
  | some d => decide (d ≤ current_level)
  | none => false

/-- Recursive line construction of `build_tree_lines`, producing structured
lines; the string assembly is the separate `render_line`, so that stated
invariants can speak about names, kinds and levels. Fuel decreases at each
directory descent; the wrapper passes a strict bound on the descent depth. -/
def build_entries_go : Nat → List FSEntry → List String → List FSEntry → String →
    List String → Option (List (List String)) → Bool → Option Int → Int → List LineRec
  | 0, _, _, _, _, _, _, _, _, _ => []
  | fuel + 1, fs, path, entries, indent, exclude, git, compact, depth, current_level =>
      let pe := if compact then collapse_single_dirs fs path entries git exclude
                else (path, entries)
      let items := surviving_children fs pe.1 pe.2 exclude git
      let total := items.length
      (items.enum.map (fun pr =>
        if depth_gate depth current_level then []
        else
          let i := pr.1
          let item := pr.2
          let line : LineRec :=
            ⟨indent, i == total - 1, item.name, item.isDir, item.sizeOpt,
             current_level, pe.1 ++ [item.name]⟩
          line ::
            (match item with
             | FSEntry.dir n ch =>
                 build_entries_go fuel fs (pe.1 ++ [n]) ch
                   (indent ++ (if i == total - 1 then "    " else "│   "))
                   exclude git compact depth (current_level + 1)
             | FSEntry.file _ _ => []))).flatten

/-- Structured form of `build_tree_lines(startpath, indent, ...)`: `fs` is the
whole modelled tree (for stat calls on tracked paths), `path` the start path
and `entries` its listing. -/
def build_tree_entries (fs : List FSEntry) (path : List String)
    (entries : List FSEntry) (indent : String) (exclude : List String)
    (git : Option (List (List String))) (compact : Bool) (depth : Option Int)
    (current_level : Int) : List LineRec :=
  build_entries_go (tsizeList entries + 1) fs path entries indent exclude git compact
    depth current_level

/-- Round-half-even of (10 * n) / 1024 ^ k, then rendered as the one-decimal
form CPython produces for the exact value n / 1024 ^ k under `:.1f`. -/
def format_one_decimal (n : Nat) (k : Nat) : String :=
  let d := 1024 ^ k
  let q := (10 * n) / d
  let r := (10 * n) % d
  let v := if 2 * r < d then q
           else if d < 2 * r then q + 1
           else if q % 2 = 0 then q else q + 1
  toString (v / 10) ++ "." ++ toString (v % 10)

/-- The unit loop of `human_readable_size`: the running float value after k
divisions is exactly n / 1024 ^ k, so `size < 1024` reads n < 1024 ^ (k+1). -/
def hrs_go (n : Nat) (k : Nat) : List String → String
  | [] => format_one_decimal n k ++ "PB"
  | u :: us =>
      if n < 1024 ^ (k + 1) then format_one_decimal n k ++ u
      else hrs_go n (k + 1) us

/-- Embeds `human_readable_size(size)` from the source. -/
def human_readable_size (n : Nat) : String :=
  hrs_go n 0 ["B", "KB", "MB", "GB", "TB"]

/-- Colorama `Fore.BLUE + Style.BRIGHT`, the `COLOR_DIR` constant. -/
def COLOR_DIR : String := "\x1b[34m\x1b[1m"

/-- Colorama `Fore.RESET`, the `COLOR_FILE` constant. -/
def COLOR_FILE : String := "\x1b[39m"

/-- Colorama `Style.RESET_ALL`. -/
def STYLE_RESET_ALL : String := "\x1b[0m"

/-- String assembly of one emitted line, verbatim from the source: connector
glyph by last position, the name wrapped in color codes (`COLOR_FILE` and the
reset suffix are applied even when color is disabled or the entry is a file),
and the size suffix for files when sizes are shown. -/
def render_line (color : Bool) (show_sizes : Bool) (r : LineRec) : String :=
  let connector := if r.isLast then "└── " else "├── "
  let colored :=
    if color && r.dirFlag then COLOR_DIR ++ r.name ++ STYLE_RESET_ALL
    else COLOR_FILE ++ r.name ++ STYLE_RESET_ALL
  let sizeSuffix :=
    match r.fileSize, show_sizes with
    | some s, true => " (" ++ human_readable_size s ++ ")"
    | _, _ => ""
  r.indent ++ connector ++ colored ++ sizeSuffix

/-- Embeds `build_tree_lines` from the source: the structured lines rendered
to strings in order. -/
def build_tree_lines (fs : List FSEntry) (path : List String)
    (entries : List FSEntry) (indent : String) (exclude : List String)
    (git : Option (List (List String))) (color : Bool) (show_sizes : Bool)
    (compact : Bool) (depth : Option Int) (current_level : Int) : List String :=
  (build_tree_entries fs path entries indent exclude git compact depth
    current_level).map (render_line color show_sizes)

/-- The unit chosen for n bytes according to the specification text: the
smallest unit index i (0 for B through 5 for PB) whose scaled value
n / 1024 ^ i stays below 1024, saturating at PB. Stated from the
specification, to be compared with the unit the loop of the source picks. -/
def spec_unit_index (n : Nat) : Nat :=
  if n < 1024 then 0
  else if n < 1024 ^ 2 then 1
  else if n < 1024 ^ 3 then 2
  else if n < 1024 ^ 4 then 3
  else if n < 1024 ^ 5 then 4
  else 5

/-- The unit suffix for a unit index. -/
def spec_unit_name : Nat → String
  | 0 => "B"
  | 1 => "KB"
  | 2 => "MB"
  | 3 => "GB"
  | 4 => "TB"
  | _ => "PB"

/-- The possible outcomes of the external `git -C root ls-files` call made by
`get_git_tracked_files`: a run that exits zero with its stdout lines, a run
that exits non-zero (which `check=True` surfaces as
`subprocess.CalledProcessError`, also the case of a root that is not a
repository), or an absent `git` executable (which `subprocess.run` surfaces as
`FileNotFoundError`, an `OSError` that is not a `CalledProcessError`). -/
inductive GitQueryOutcome where
  | ok (stdout_lines : List String)
  | calledProcessError
  | fileNotFoundError
deriving DecidableEq, Repr

/-- Embeds `get_git_tracked_files(root)` as a function of the outcome of its
single external call. `Except.ok` is a normal return (the tracked set, one
resolved absolute path `root / line.strip()` per stdout line); `Except.error`
is an exception escaping the function: the source only catches
`subprocess.CalledProcessError`, so `FileNotFoundError` propagates. -/
def get_git_tracked_files (root : List String) (outcome : GitQueryOutcome) :
    Except String (List (List String)) :=
  match outcome with
  | GitQueryOutcome.ok ls =>
      Except.ok (ls.map (fun line => root ++ (line.trim.splitOn "/")))
  | GitQueryOutcome.calledProcessError => Except.ok []
  | GitQueryOutcome.fileNotFoundError => Except.error "FileNotFoundError"

/-- Removes the first element satisfying `p` from a list, if any. -/
def remove_first_by (p : FSEntry → Bool) : List FSEntry → Option (List FSEntry)
  | [] => none
  | y :: ys =>
      if p y then some ys
      else
        match remove_first_by p ys with
        | some ys2 => some (y :: ys2)
        | none => none

/-- Multiset matching of two listings modulo the element equivalence `eq1`:
used to say that two listings are equal up to enumeration order. -/
def eqv_list_by (eq1 : FSEntry → FSEntry → Bool) : List FSEntry → List FSEntry → Bool
  | [], [] => true
  | [], _ :: _ => false
  | x :: xs, ys =>
      match remove_first_by (fun y => eq1 x y) ys with
      | some ys2 => eqv_list_by eq1 xs ys2
      | none => false

/-- Equivalence of two modelled trees up to the enumeration order of every
directory listing: files must agree exactly, directories must agree on the
name and have listings that match as multisets of equivalent entries. -/
def eqv_go : Nat → FSEntry → FSEntry → Bool
  | 0, _, _ => false
  | _ + 1, FSEntry.file n s, FSEntry.file m t => n == m && s == t
  | fuel + 1, FSEntry.dir n l, FSEntry.dir m k => n == m && eqv_list_by (eqv_go fuel) l k
  | _ + 1, _, _ => false

/-- Entry-level view of tree equivalence up to listing order. -/
def FSEntry.eqv (a b : FSEntry) : Bool := eqv_go (a.tsize + 1) a b

/-- Listing-level view of tree equivalence up to listing order. -/
def eqv_list (l m : List FSEntry) : Bool := eqv_list_by (eqv_go (tsizeList l + 1)) l m

/-- Pairwise-distinct entry names in one listing, the invariant every real
directory satisfies. -/
def names_nodup : List FSEntry → Bool
  | [] => true
  | e :: es => !(es.any (fun x => x.name == e.name)) && names_nodup es

/-- The sort key of an entry, `(x.is_file(), x.name.lower())`. -/
def entry_key (e : FSEntry) : Bool × String := (e.isFile, lower_name e.name)

/-- Pairwise-distinct sort keys in one listing: no two siblings of the same
kind whose names agree modulo letter case. -/
def keys_nodup : List FSEntry → Bool
  | [] => true
  | e :: es => !(es.any (fun x => decide (entry_key x = entry_key e))) && keys_nodup es

/-- Well-formedness of a tree for the determinism statement: every directory
listing has pairwise-distinct names and pairwise-distinct sort keys, at every
level. -/
def wf_go : Nat → FSEntry → Bool
  | 0, _ => false
  | _ + 1, FSEntry.file _ _ => true
  | fuel + 1, FSEntry.dir _ ch => names_nodup ch && keys_nodup ch && ch.all (wf_go fuel)

/-- Listing-level well-formedness for the determinism statement. -/
def wf_list (l : List FSEntry) : Bool :=
  names_nodup l && keys_nodup l && l.all (wf_go (tsizeList l + 1))

/-! Helper lemmas: sizes, permutations, the stable sort and the comparator. -/

theorem tsize_pos (e : FSEntry) : 0 < e.tsize := by
  cases e <;> simp [FSEntry.tsize]

theorem tsizeList_cons (e : FSEntry) (es : List FSEntry) :
    tsizeList (e :: es) = e.tsize + tsizeList es := by
  simp [tsizeList]

theorem tsize_le_of_mem {e : FSEntry} {l : List FSEntry} (h : e ∈ l) :
    e.tsize ≤ tsizeList l := by
  induction l with
  | nil => cases h
  | cons x xs ih =>
      rcases List.mem_cons.mp h with h1 | h2
      · subst h1; simp [tsizeList_cons]
      · have := ih h2
        simp [tsizeList_cons]
        omega

theorem tsizeList_filter_le (p : FSEntry → Bool) (l : List FSEntry) :
    tsizeList (l.filter p) ≤ tsizeList l := by
  induction l with
  | nil => simp
  | cons x xs ih =>
      rw [List.filter_cons]
      split
      · simp [tsizeList_cons]; omega
      · simp [tsizeList_cons]; omega

theorem tsizeList_perm {l m : List FSEntry} (h : l.Perm m) :
    tsizeList l = tsizeList m := by
  induction h with
  | nil => rfl
  | cons x _ ih => simp [tsizeList_cons, ih]
  | swap x y l => simp [tsizeList_cons]; omega
  | trans _ _ ih1 ih2 => omega

theorem py_insert_perm (le : FSEntry → FSEntry → Bool) (x : FSEntry) (l : List FSEntry) :
    (py_insert le x l).Perm (x :: l) := by
  induction l with
  | nil => simp [py_insert]
  | cons y ys ih =>
      rw [py_insert]
      split
      · exact List.Perm.refl _
      · exact List.Perm.trans (ih.cons y) (List.Perm.swap x y ys)

theorem py_sorted_perm (le : FSEntry → FSEntry → Bool) (l : List FSEntry) :
    (py_sorted le l).Perm l := by
  induction l with
  | nil => simp [py_sorted]
  | cons x xs ih =>
      rw [py_sorted]
      exact List.Perm.trans (py_insert_perm le x (py_sorted le xs)) (ih.cons x)

theorem mem_py_insert {le : FSEntry → FSEntry → Bool} {x a : FSEntry} {l : List FSEntry} :
    a ∈ py_insert le x l ↔ a = x ∨ a ∈ l := by
  rw [(py_insert_perm le x l).mem_iff]
  simp

theorem mem_py_sorted {le : FSEntry → FSEntry → Bool} {a : FSEntry} {l : List FSEntry} :
    a ∈ py_sorted le l ↔ a ∈ l := (py_sorted_perm le l).mem_iff

theorem pairwise_py_insert {le : FSEntry → FSEntry → Bool}
    (htot : ∀ a b, (le a b || le b a) = true)
    (htrans : ∀ a b c, le a b = true → le b c = true → le a c = true)
    {x : FSEntry} {l : List FSEntry}
    (h : l.Pairwise (fun a b => le a b = true)) :
    (py_insert le x l).Pairwise (fun a b => le a b = true) := by
  induction l with
  | nil => simp [py_insert]
  | cons y ys ih =>
      rw [py_insert]
      rcases List.pairwise_cons.mp h with ⟨hy, hys⟩
      split
      · rename_i hxy
        refine List.pairwise_cons.mpr ⟨?_, h⟩
        intro z hz
        rcases List.mem_cons.mp hz with h1 | h2
        · subst h1; exact hxy
        · exact htrans x y z hxy (hy z h2)
      · rename_i hxy
        have hyx : le y x = true := by
          have := htot x y
          simp [hxy] at this
          exact this
        refine List.pairwise_cons.mpr ⟨?_, ih hys⟩
        intro z hz
        rcases mem_py_insert.mp hz with h1 | h2
        · subst h1; exact hyx
        · exact hy z h2

theorem pairwise_py_sorted {le : FSEntry → FSEntry → Bool}
    (htot : ∀ a b, (le a b || le b a) = true)
    (htrans : ∀ a b c, le a b = true → le b c = true → le a c = true)
    (l : List FSEntry) :
    (py_sorted le l).Pairwise (fun a b => le a b = true) := by
  induction l with
  | nil => simp [py_sorted]
  | cons x xs ih =>
      rw [py_sorted]
      exact pairwise_py_insert htot htrans ih

theorem char_list_le_total (s t : List Char) :
    (char_list_le s t || char_list_le t s) = true := by
  induction s generalizing t with
  | nil => simp [char_list_le]
  | cons a as ih =>
      cases t with
      | nil => simp [char_list_le]
      | cons b bs =>
          by_cases hab : a = b
          · subst hab
            simp only [char_list_le, if_pos rfl]
            exact ih bs
          · have hne : ¬b = a := fun h => hab h.symm
            simp only [char_list_le, if_neg hab, if_neg hne]
            rcases lt_or_gt_of_ne hab with h | h
            · simp [h]
            · simp [h]

theorem char_list_le_trans {s t u : List Char}
    (h1 : char_list_le s t = true) (h2 : char_list_le t u = true) :
    char_list_le s u = true := by
  induction s generalizing t u with
  | nil => simp [char_list_le]
  | cons a as ih =>
      cases t with
      | nil => simp [char_list_le] at h1
      | cons b bs =>
          cases u with
          | nil => simp [char_list_le] at h2
          | cons c cs =>
              by_cases hab : a = b <;> by_cases hbc : b = c
              · subst hab; subst hbc
                simp only [char_list_le, if_pos rfl] at h1 h2 ⊢
                exact ih h1 h2
              · subst hab
                simp only [char_list_le, if_pos rfl, if_neg hbc] at h1 h2 ⊢
                exact h2
              · subst hbc
                simp only [char_list_le, if_pos rfl, if_neg hab] at h1 h2 ⊢
                exact h1
              · simp only [char_list_le, if_neg hab, if_neg hbc] at h1 h2
                have hac : a < c := lt_trans (of_decide_eq_true h1) (of_decide_eq_true h2)
                have hne : ¬a = c := ne_of_lt hac
                simp [char_list_le, if_neg hne, hac]

theorem char_list_le_antisymm {s t : List Char}
    (h1 : char_list_le s t = true) (h2 : char_list_le t s = true) : s = t := by
  induction s generalizing t with
  | nil =>
      cases t with
      | nil => rfl
      | cons b bs => simp [char_list_le] at h2
  | cons a as ih =>
      cases t with
      | nil => simp [char_list_le] at h1
      | cons b bs =>
          by_cases hab : a = b
          · subst hab
            simp only [char_list_le, if_pos rfl] at h1 h2
            rw [ih h1 h2]
          · have hne : ¬b = a := fun h => hab h.symm
            simp only [char_list_le, if_neg hab, if_neg hne] at h1 h2
            exact absurd (lt_trans (of_decide_eq_true h1) (of_decide_eq_true h2))
              (lt_irrefl a)

theorem str_le_total (s t : String) : (str_le s t || str_le t s) = true :=
  char_list_le_total s.data t.data

theorem str_le_trans {s t u : String} (h1 : str_le s t = true) (h2 : str_le t u = true) :
    str_le s u = true :=
  char_list_le_trans h1 h2

theorem str_le_antisymm {s t : String} (h1 : str_le s t = true) (h2 : str_le t s = true) :
    s = t :=
  String.ext (char_list_le_antisymm h1 h2)

theorem str_le_refl (s : String) : str_le s s = true := by
  have := str_le_total s s
  rcases Bool.or_eq_true_iff.mp this with h | h <;> exact h

theorem key_le_total (a b : FSEntry) : (key_le a b || key_le b a) = true := by
  unfold key_le
  cases ha : a.isFile <;> cases hb : b.isFile <;> simp
  · exact Bool.or_eq_true_iff.mp (str_le_total _ _)
  · exact Bool.or_eq_true_iff.mp (str_le_total _ _)

theorem key_le_trans (a b c : FSEntry) (h1 : key_le a b = true) (h2 : key_le b c = true) :
    key_le a c = true := by
  unfold key_le at h1 h2 ⊢
  cases ha : a.isFile <;> cases hb : b.isFile <;> cases hc : c.isFile <;>
    simp [ha, hb, hc] at h1 h2 ⊢
  · exact str_le_trans h1 h2
  · exact str_le_trans h1 h2

theorem key_le_antisymm (a b : FSEntry) (h1 : key_le a b = true) (h2 : key_le b a = true) :
    entry_key a = entry_key b := by
  unfold key_le at h1 h2
  unfold entry_key
  cases ha : a.isFile <;> cases hb : b.isFile <;> simp [ha, hb] at h1 h2 ⊢
  · exact str_le_antisymm h1 h2
  · exact str_le_antisymm h1 h2

theorem mem_of_mem_enum {α : Type} {pr : Nat × α} {l : List α} (h : pr ∈ l.enum) :
    pr.2 ∈ l := by
  rcases pr with ⟨i, a⟩
  rcases List.mem_enum h with ⟨hlt, hget⟩
  show a ∈ l
  rw [hget]
  exact List.getElem_mem hlt

theorem mem_surviving_children {fs : List FSEntry} {path : List String}
    {entries : List FSEntry} {exclude : List String} {git : Option (List (List String))}
    {it : FSEntry} (h : it ∈ surviving_children fs path entries exclude git) :
    it ∈ entries ∧ matches_patterns it.name exclude = false := by
  unfold surviving_children at h
  have h1 := (List.mem_filter.mp h).1
  have h2 := (List.mem_filter.mp (mem_py_sorted.mp h1)).2
  have h3 := (List.mem_filter.mp (mem_py_sorted.mp h1)).1
  exact ⟨h3, by simpa using h2⟩

theorem tsizeList_surviving_le (fs : List FSEntry) (path : List String)
    (entries : List FSEntry) (exclude : List String) (git : Option (List (List String))) :
    tsizeList (surviving_children fs path entries exclude git) ≤ tsizeList entries := by
  unfold surviving_children
  calc tsizeList ((py_sorted key_le (entries.filter
          (fun it => !matches_patterns it.name exclude))).filter
            (fun it => track_filter fs git (path ++ [it.name])))
      ≤ tsizeList (py_sorted key_le (entries.filter
          (fun it => !matches_patterns it.name exclude))) := tsizeList_filter_le _ _
    _ = tsizeList (entries.filter (fun it => !matches_patterns it.name exclude)) :=
        tsizeList_perm (py_sorted_perm _ _)
    _ ≤ tsizeList entries := tsizeList_filter_le _ _

theorem collapse_go_tsize_le (fuel : Nat) :
    ∀ (fs : List FSEntry) (path : List String) (entries : List FSEntry)
      (git : Option (List (List String))) (exclude : List String),
    tsizeList (collapse_go fuel fs path entries git exclude).2 ≤ tsizeList entries := by
  induction fuel with
  | zero => intro fs path entries git exclude; simp [collapse_go]
  | succ n ih =>
      intro fs path entries git exclude
      simp only [collapse_go]
      split
      · rename_i nm ch heqd heqf
        have hmem : FSEntry.dir nm ch ∈ entries := by
          have h1 : FSEntry.dir nm ch ∈
              ((entries.filter (fun it => !matches_patterns it.name exclude)).filter
                (fun it => track_filter fs git (path ++ [it.name]))).filter
                  FSEntry.isDir := by
            rw [heqd]; exact List.mem_singleton.mpr rfl
          exact (List.mem_filter.mp ((List.mem_filter.mp
            ((List.mem_filter.mp h1).1)).1)).1
        have hsz : FSEntry.tsize (FSEntry.dir nm ch) ≤ tsizeList entries :=
          tsize_le_of_mem hmem
        have hch : tsizeList ch < tsizeList entries := by
          simp [FSEntry.tsize] at hsz; omega
        exact le_trans (ih fs (path ++ [nm]) ch git exclude) (le_of_lt hch)
      · simp

theorem collapse_branch_tsize {fs : List FSEntry} {path : List String}
    {entries : List FSEntry} {git : Option (List (List String))}
    {exclude : List String} {nm : String} {ch : List FSEntry}
    (heqd : ((entries.filter (fun it => !matches_patterns it.name exclude)).filter
        (fun it => track_filter fs git (path ++ [it.name]))).filter FSEntry.isDir
      = [FSEntry.dir nm ch]) :
    tsizeList ch < tsizeList entries := by
  have h1 : FSEntry.dir nm ch ∈
      ((entries.filter (fun it => !matches_patterns it.name exclude)).filter
        (fun it => track_filter fs git (path ++ [it.name]))).filter FSEntry.isDir := by
    rw [heqd]; exact List.mem_singleton.mpr rfl
  have hmem : FSEntry.dir nm ch ∈ entries :=
    (List.mem_filter.mp ((List.mem_filter.mp ((List.mem_filter.mp h1).1)).1)).1
  have hsz := tsize_le_of_mem hmem
  simp [FSEntry.tsize] at hsz
  omega

theorem collapse_go_congr : ∀ (f1 f2 : Nat) (fs : List FSEntry) (path : List String)
    (entries : List FSEntry) (git : Option (List (List String))) (exclude : List String),
    tsizeList entries < f1 → tsizeList entries < f2 →
    collapse_go f1 fs path entries git exclude = collapse_go f2 fs path entries git exclude := by
  intro f1
  induction f1 with
  | zero => intro f2 fs path entries git exclude h1 h2; omega
  | succ n ih =>
      intro f2 fs path entries git exclude h1 h2
      cases f2 with
      | zero => omega
      | succ m =>
          simp only [collapse_go]
          split
          · rename_i nm ch heqd heqf
            have hch := collapse_branch_tsize heqd
            exact ih m fs (path ++ [nm]) ch git exclude (by omega) (by omega)
          · rfl

theorem collapse_go_eq_wrapper {fuel : Nat} {fs : List FSEntry} {path : List String}
    {entries : List FSEntry} {git : Option (List (List String))} {exclude : List String}
    (h : tsizeList entries < fuel) :
    collapse_go fuel fs path entries git exclude =
      collapse_single_dirs fs path entries git exclude :=
  collapse_go_congr fuel (tsizeList entries + 1) fs path entries git exclude h (by omega)

theorem collapse_stop {fs : List FSEntry} {path : List String} {entries : List FSEntry}
    {git : Option (List (List String))} {exclude : List String}
    (h : single_dir_condition fs path entries git exclude = false) :
    collapse_single_dirs fs path entries git exclude = (path, entries) := by
  unfold collapse_single_dirs
  simp only [collapse_go]
  split
  · rename_i nm ch heqd heqf
    simp only [single_dir_condition, heqd, heqf] at h
    simp at h
  · rfl

theorem collapse_descend {fs : List FSEntry} {path : List String} {entries : List FSEntry}
    {git : Option (List (List String))} {exclude : List String} {nm : String}
    {ch : List FSEntry}
    (heqd : ((entries.filter (fun it => !matches_patterns it.name exclude)).filter
        (fun it => track_filter fs git (path ++ [it.name]))).filter FSEntry.isDir
      = [FSEntry.dir nm ch])
    (heqf : (((entries.filter (fun it => !matches_patterns it.name exclude)).filter
        (fun it => track_filter fs git (path ++ [it.name]))).filter FSEntry.isFile).isEmpty
      = true) :
    collapse_single_dirs fs path entries git exclude =
      collapse_single_dirs fs (path ++ [nm]) ch git exclude := by
  have hch := collapse_branch_tsize heqd
  unfold collapse_single_dirs
  conv_lhs => rw [collapse_go]
  simp only [heqd, heqf]
  exact collapse_go_congr (tsizeList entries) (tsizeList ch + 1) fs (path ++ [nm]) ch
    git exclude (by omega) (by omega)

theorem single_dir_condition_true_elim {fs : List FSEntry} {path : List String}
    {entries : List FSEntry} {git : Option (List (List String))} {exclude : List String}
    (h : single_dir_condition fs path entries git exclude = true) :
    ∃ nm ch,
      ((entries.filter (fun it => !matches_patterns it.name exclude)).filter
          (fun it => track_filter fs git (path ++ [it.name]))).filter FSEntry.isDir
        = [FSEntry.dir nm ch] ∧
      (((entries.filter (fun it => !matches_patterns it.name exclude)).filter
          (fun it => track_filter fs git (path ++ [it.name]))).filter FSEntry.isFile).isEmpty
        = true := by
  simp only [single_dir_condition, Bool.and_eq_true, beq_iff_eq] at h
  rcases h with ⟨hlen, hemp⟩
  rcases List.length_eq_one.mp hlen with ⟨d, hd⟩
  have hdmem : d ∈ ((entries.filter (fun it => !matches_patterns it.name exclude)).filter
      (fun it => track_filter fs git (path ++ [it.name]))).filter FSEntry.isDir := by
    rw [hd]; exact List.mem_singleton.mpr rfl
  have hdir : d.isDir = true := (List.mem_filter.mp hdmem).2
  cases d with
  | file n s => simp [FSEntry.isDir] at hdir
  | dir nm ch => exact ⟨nm, ch, hd, hemp⟩

theorem collapse_post_condition (fs : List FSEntry) (git : Option (List (List String)))
    (exclude : List String) :
    ∀ (k : Nat) (path : List String) (entries : List FSEntry), tsizeList entries ≤ k →
    single_dir_condition fs (collapse_single_dirs fs path entries git exclude).1
      (collapse_single_dirs fs path entries git exclude).2 git exclude = false := by
  intro k
  induction k using Nat.strong_induction_on with
  | _ k ih =>
      intro path entries hk
      by_cases hcond : single_dir_condition fs path entries git exclude = true
      · rcases single_dir_condition_true_elim hcond with ⟨nm, ch, heqd, heqf⟩
        rw [collapse_descend heqd heqf]
        have hch := collapse_branch_tsize heqd
        exact ih (tsizeList ch) (by omega) (path ++ [nm]) ch (le_refl _)
      · have hfalse : single_dir_condition fs path entries git exclude = false :=
          Bool.not_eq_true _ |>.mp hcond
        rw [collapse_stop hfalse]
        exact hfalse

theorem collapse_idempotent (fs : List FSEntry) (path : List String)
    (entries : List FSEntry) (git : Option (List (List String))) (exclude : List String) :
    collapse_single_dirs fs (collapse_single_dirs fs path entries git exclude).1
      (collapse_single_dirs fs path entries git exclude).2 git exclude =
    collapse_single_dirs fs path entries git exclude := by
  have hpost := collapse_post_condition fs git exclude (tsizeList entries) path entries
    (le_refl _)
  rw [collapse_stop hpost]

theorem collapse_path_names (fs : List FSEntry) (git : Option (List (List String)))
    (exclude : List String) :
    ∀ (k : Nat) (path : List String) (entries : List FSEntry), tsizeList entries ≤ k →
    ∃ suffix, (collapse_single_dirs fs path entries git exclude).1 = path ++ suffix ∧
      ∀ n ∈ suffix, matches_patterns n exclude = false := by
  intro k
  induction k using Nat.strong_induction_on with
  | _ k ih =>
      intro path entries hk
      by_cases hcond : single_dir_condition fs path entries git exclude = true
      · rcases single_dir_condition_true_elim hcond with ⟨nm, ch, heqd, heqf⟩
        rw [collapse_descend heqd heqf]
        have hch := collapse_branch_tsize heqd
        rcases ih (tsizeList ch) (by omega) (path ++ [nm]) ch (le_refl _) with
          ⟨suffix, hpath, hnames⟩
        refine ⟨nm :: suffix, by simpa using hpath, ?_⟩
        intro n hn
        rcases List.mem_cons.mp hn with h1 | h2
        · subst h1
          have h1 : FSEntry.dir n ch ∈
              ((entries.filter (fun it => !matches_patterns it.name exclude)).filter
                (fun it => track_filter fs git (path ++ [it.name]))).filter FSEntry.isDir := by
            rw [heqd]; exact List.mem_singleton.mpr rfl
          have h2 := (List.mem_filter.mp ((List.mem_filter.mp
            ((List.mem_filter.mp h1).1)).1)).2
          simpa [FSEntry.name] using h2
        · exact hnames n h2
      · have hfalse : single_dir_condition fs path entries git exclude = false :=
          Bool.not_eq_true _ |>.mp hcond
        rw [collapse_stop hfalse]
        exact ⟨[], by simp, by simp⟩

theorem collapse_tsize_le (fs : List FSEntry) (path : List String)
    (entries : List FSEntry) (git : Option (List (List String))) (exclude : List String) :
    tsizeList (collapse_single_dirs fs path entries git exclude).2 ≤ tsizeList entries :=
  collapse_go_tsize_le (tsizeList entries + 1) fs path entries git exclude

theorem pe_tsize_le (fs : List FSEntry) (path : List String) (entries : List FSEntry)
    (git : Option (List (List String))) (exclude : List String) (compact : Bool) :
    tsizeList (if compact then collapse_single_dirs fs path entries git exclude
      else (path, entries)).2 ≤ tsizeList entries := by
  cases compact
  · simp
  · simpa using collapse_tsize_le fs path entries git exclude

theorem build_go_congr : ∀ (k f1 f2 : Nat) (fs : List FSEntry) (path : List String)
    (entries : List FSEntry) (indent : String) (exclude : List String)
    (git : Option (List (List String))) (compact : Bool) (depth : Option Int)
    (current_level : Int),
    tsizeList entries ≤ k → tsizeList entries < f1 → tsizeList entries < f2 →
    build_entries_go f1 fs path entries indent exclude git compact depth current_level =
    build_entries_go f2 fs path entries indent exclude git compact depth current_level := by
  intro k
  induction k using Nat.strong_induction_on with
  | _ k ih =>
      intro f1 f2 fs path entries indent exclude git compact depth current_level hk h1 h2
      cases f1 with
      | zero => omega
      | succ n =>
          cases f2 with
          | zero => omega
          | succ m =>
              simp only [build_entries_go]
              apply congrArg List.flatten
              apply List.map_congr_left
              rintro ⟨i, item⟩ hpr
              have hmemitems := mem_of_mem_enum hpr
              split
              · rfl
              · have hmem := (mem_surviving_children hmemitems).1
                have hsz := tsize_le_of_mem hmem
                have hpe := pe_tsize_le fs path entries git exclude compact
                cases item with
                | file nm s => rfl
                | dir nm ch =>
                    simp only [FSEntry.tsize] at hsz
                    have hch : tsizeList ch < tsizeList entries := by omega
                    simp only []
                    apply congrArg
                    exact ih (tsizeList ch) (by omega) n m fs _ ch _ exclude git compact
                      depth (current_level + 1) (le_refl _) (by omega) (by omega)

theorem build_tree_entries_unfold (fs : List FSEntry) (path : List String)
    (entries : List FSEntry) (indent : String) (exclude : List String)
    (git : Option (List (List String))) (compact : Bool) (depth : Option Int)
    (current_level : Int) :
    build_tree_entries fs path entries indent exclude git compact depth current_level =
      ((surviving_children fs
          (if compact then collapse_single_dirs fs path entries git exclude
            else (path, entries)).1
          (if compact then collapse_single_dirs fs path entries git exclude
            else (path, entries)).2 exclude git).enum.map (fun pr =>
        if depth_gate depth current_level then []
        else
          (⟨indent,
            pr.1 == (surviving_children fs
              (if compact then collapse_single_dirs fs path entries git exclude
                else (path, entries)).1
              (if compact then collapse_single_dirs fs path entries git exclude
                else (path, entries)).2 exclude git).length - 1,
            pr.2.name, pr.2.isDir, pr.2.sizeOpt, current_level,
            (if compact then collapse_single_dirs fs path entries git exclude
              else (path, entries)).1 ++ [pr.2.name]⟩ : LineRec) ::
            (match pr.2 with
             | FSEntry.dir n ch =>
                 build_tree_entries fs
                   ((if compact then collapse_single_dirs fs path entries git exclude
                     else (path, entries)).1 ++ [n]) ch
                   (indent ++ (if pr.1 == (surviving_children fs
                      (if compact then collapse_single_dirs fs path entries git exclude
                        else (path, entries)).1
                      (if compact then collapse_single_dirs fs path entries git exclude
                        else (path, entries)).2 exclude git).length - 1
                     then "    " else "│   "))
                   exclude git compact depth (current_level + 1)
             | FSEntry.file _ _ => []))).flatten := by
  conv_lhs => rw [build_tree_entries]
  simp only [build_entries_go]
  apply congrArg List.flatten
  apply List.map_congr_left
  rintro ⟨i, item⟩ hpr
  have hmemitems := mem_of_mem_enum hpr
  split
  · rfl
  · have hmem := (mem_surviving_children hmemitems).1
    have hsz := tsize_le_of_mem hmem
    have hpe := pe_tsize_le fs path entries git exclude compact
    cases item with
    | file nm s => rfl
    | dir nm ch =>
        simp only [FSEntry.tsize] at hsz
        have hch : tsizeList ch < tsizeList entries := by omega
        simp only []
        apply congrArg
        exact build_go_congr (tsizeList ch) (tsizeList entries) (tsizeList ch + 1) fs _ ch
          _ exclude git compact depth (current_level + 1) (le_refl _) (by omega) (by omega)

theorem build_gate_empty {fs : List FSEntry} {path : List String} {entries : List FSEntry}
    {indent : String} {exclude : List String} {git : Option (List (List String))}
    {compact : Bool} {depth : Option Int} {current_level : Int}
    (h : depth_gate depth current_level = true) :
    build_tree_entries fs path entries indent exclude git compact depth current_level = [] := by
  rw [build_tree_entries_unfold]
  rw [List.map_congr_left (g := fun _ => ([] : List LineRec)) (by intro a _; simp [h])]
  simp

theorem mem_build_elim {fs : List FSEntry} {path : List String} {entries : List FSEntry}
    {indent : String} {exclude : List String} {git : Option (List (List String))}
    {compact : Bool} {depth : Option Int} {current_level : Int} {r : LineRec}
    (h : r ∈ build_tree_entries fs path entries indent exclude git compact depth
      current_level) :
    depth_gate depth current_level = false ∧
    ∃ pe items i item,
      pe = (if compact then collapse_single_dirs fs path entries git exclude
              else (path, entries)) ∧
      items = surviving_children fs pe.1 pe.2 exclude git ∧
      (i, item) ∈ items.enum ∧
      (r = (⟨indent, i == items.length - 1, item.name, item.isDir, item.sizeOpt,
              current_level, pe.1 ++ [item.name]⟩ : LineRec) ∨
       ∃ n ch, item = FSEntry.dir n ch ∧
         r ∈ build_tree_entries fs (pe.1 ++ [n]) ch
           (indent ++ (if i == items.length - 1 then "    " else "│   "))
           exclude git compact depth (current_level + 1)) := by
  cases hgate : depth_gate depth current_level with
  | true => rw [build_gate_empty hgate] at h; cases h
  | false =>
      rw [build_tree_entries_unfold] at h
      rcases List.mem_flatten.mp h with ⟨l, hl, hrl⟩
      rcases List.mem_map.mp hl with ⟨pr, hpr, hfl⟩
      rcases pr with ⟨i, item⟩
      rw [hgate] at hfl
      simp only [Bool.false_eq_true, if_false] at hfl
      subst hfl
      refine ⟨rfl, _, _, i, item, rfl, rfl, hpr, ?_⟩
      rcases List.mem_cons.mp hrl with hline | hsub
      · exact Or.inl hline
      · cases item with
        | file nm s => simp at hsub
        | dir nm ch => exact Or.inr ⟨nm, ch, rfl, hsub⟩

theorem build_level_bounds {fs : List FSEntry} {exclude : List String}
    {git : Option (List (List String))} {compact : Bool} {N : Int} :
    ∀ (k : Nat) (path : List String) (entries : List FSEntry) (indent : String)
      (current_level : Int),
    tsizeList entries ≤ k →
    ∀ r ∈ build_tree_entries fs path entries indent exclude git compact (some N)
      current_level,
    current_level ≤ r.level ∧ r.level < N := by
  intro k
  induction k using Nat.strong_induction_on with
  | _ k ih =>
      intro path entries indent current_level hk r hr
      rcases mem_build_elim hr with ⟨hgate, pe, items, i, item, hpe, hitems, hmem, hcase⟩
      have hcl : current_level < N := by
        simp only [depth_gate, decide_eq_false_iff_not, not_le] at hgate
        exact hgate
      rcases hcase with hline | ⟨n, ch, hitem, hsub⟩
      · subst hline
        exact ⟨le_refl _, hcl⟩
      · subst hitem
        have hmemit : FSEntry.dir n ch ∈ items := mem_of_mem_enum hmem
        rw [hitems] at hmemit
        have hment := (mem_surviving_children hmemit).1
        have hsz := tsize_le_of_mem hment
        simp only [FSEntry.tsize] at hsz
        have hpes : tsizeList pe.2 ≤ tsizeList entries := by
          rw [hpe]; exact pe_tsize_le fs path entries git exclude compact
        have hch : tsizeList ch < tsizeList entries := by omega
        have := ih (tsizeList ch) (by omega) _ ch _ (current_level + 1) (le_refl _) r hsub
        exact ⟨by omega, this.2⟩

theorem build_names_clean {fs : List FSEntry} {exclude : List String}
    {git : Option (List (List String))} {compact : Bool} {depth : Option Int} :
    ∀ (k : Nat) (path : List String) (entries : List FSEntry) (indent : String)
      (current_level : Int),
    tsizeList entries ≤ k →
    ∀ r ∈ build_tree_entries fs path entries indent exclude git compact depth
      current_level,
    matches_patterns r.name exclude = false ∧
    ∃ suffix, r.epath = path ++ suffix ∧ suffix ≠ [] ∧
      ∀ n ∈ suffix, matches_patterns n exclude = false := by
  intro k
  induction k using Nat.strong_induction_on with
  | _ k ih =>
      intro path entries indent current_level hk r hr
      rcases mem_build_elim hr with ⟨hgate, pe, items, i, item, hpe, hitems, hmem, hcase⟩
      have hmemit : item ∈ items := mem_of_mem_enum hmem
      rw [hitems] at hmemit
      have hsurv := mem_surviving_children hmemit
      have hpath1 : ∃ sfx, pe.1 = path ++ sfx ∧
          ∀ n ∈ sfx, matches_patterns n exclude = false := by
        rw [hpe]
        cases compact with
        | false => exact ⟨[], by simp, by simp⟩
        | true =>
            simpa using collapse_path_names fs git exclude (tsizeList entries) path
              entries (le_refl _)
      rcases hpath1 with ⟨sfx, hsfx, hsfxnames⟩
      rcases hcase with hline | ⟨n, ch, hitem, hsub⟩
      · subst hline
        refine ⟨hsurv.2, sfx ++ [item.name], ?_, by simp, ?_⟩
        · simp [hsfx]
        · intro n hn
          rcases List.mem_append.mp hn with h1 | h2
          · exact hsfxnames n h1
          · rw [List.mem_singleton.mp h2]
            exact hsurv.2
      · subst hitem
        have hment := hsurv.1
        have hsz := tsize_le_of_mem hment
        simp only [FSEntry.tsize] at hsz
        have hpes : tsizeList pe.2 ≤ tsizeList entries := by
          rw [hpe]; exact pe_tsize_le fs path entries git exclude compact
        have hch : tsizeList ch < tsizeList entries := by omega
        rcases ih (tsizeList ch) (by omega) _ ch _ (current_level + 1) (le_refl _) r hsub
          with ⟨hname, suffix2, hsx2, hne2, hnames2⟩
        refine ⟨hname, sfx ++ [n] ++ suffix2, ?_, by simp, ?_⟩
        · rw [hsx2, hsfx]; simp
        · intro m hm
          rcases List.mem_append.mp hm with h1 | h2
          · rcases List.mem_append.mp h1 with h3 | h4
            · exact hsfxnames m h3
            · rw [List.mem_singleton.mp h4]
              simpa [FSEntry.name] using hsurv.2
          · exact hnames2 m h2

theorem track_filter_empty (fs : List FSEntry) (p : List String) :
    track_filter fs (some []) p = false := by
  simp [track_filter]

theorem build_empty_tracked (fs : List FSEntry) (path : List String)
    (entries : List FSEntry) (indent : String) (exclude : List String)
    (compact : Bool) (depth : Option Int) (current_level : Int) :
    build_tree_entries fs path entries indent exclude (some []) compact depth
      current_level = [] := by
  rw [build_tree_entries_unfold]
  have hsc : ∀ (p : List String) (e : List FSEntry),
      surviving_children fs p e exclude (some []) = [] := by
    intro p e
    simp [surviving_children, track_filter]
  rw [hsc]
  simp

theorem surviving_children_chain (fs : List FSEntry) (path : List String)
    (entries : List FSEntry) (exclude : List String)
    (git : Option (List (List String))) :
    (surviving_children fs path entries exclude git).Chain'
      (fun a b => key_le a b = true) := by
  unfold surviving_children
  apply List.Pairwise.chain'
  apply List.Pairwise.sublist (List.filter_sublist _)
  exact pairwise_py_sorted key_le_total key_le_trans _

theorem hrs_unit_eq (n : Nat) :
    human_readable_size n =
      format_one_decimal n (spec_unit_index n) ++ spec_unit_name (spec_unit_index n) := by
  have p1 : (1024:Nat) ^ 1 = 1024 := by norm_num
  have p2 : (1024:Nat) ^ 2 = 1048576 := by norm_num
  have p3 : (1024:Nat) ^ 3 = 1073741824 := by norm_num
  have p4 : (1024:Nat) ^ 4 = 1099511627776 := by norm_num
  have p5 : (1024:Nat) ^ 5 = 1125899906842624 := by norm_num
  by_cases h0 : n < 1024 <;> by_cases h1 : n < 1048576 <;>
    by_cases h2 : n < 1073741824 <;> by_cases h3 : n < 1099511627776 <;>
    by_cases h4 : n < 1125899906842624
  all_goals first
    | (exfalso; omega)
    | (simp [human_readable_size, hrs_go, spec_unit_index, spec_unit_name,
        p1, p2, p3, p4, p5, h0, h1, h2, h3, h4])

theorem spec_unit_index_scaled_lt (n : Nat) (h : spec_unit_index n < 5) :
    n < 1024 ^ (spec_unit_index n + 1) := by
  have p2 : (1024:Nat) ^ 2 = 1048576 := by norm_num
  have p3 : (1024:Nat) ^ 3 = 1073741824 := by norm_num
  have p4 : (1024:Nat) ^ 4 = 1099511627776 := by norm_num
  have p5 : (1024:Nat) ^ 5 = 1125899906842624 := by norm_num
  by_cases h0 : n < 1024 <;> by_cases h1 : n < 1048576 <;>
    by_cases h2 : n < 1073741824 <;> by_cases h3 : n < 1099511627776 <;>
    by_cases h4 : n < 1125899906842624
  all_goals first
    | (exfalso; omega)
    | (simp [spec_unit_index, h0, h1, h2, h3, h4] at h ⊢)

theorem spec_unit_index_pow_le (n : Nat) :
    spec_unit_index n = 0 ∨ 1024 ^ spec_unit_index n ≤ n := by
  by_cases h0 : n < 1024 <;> by_cases h1 : n < 1048576 <;>
    by_cases h2 : n < 1073741824 <;> by_cases h3 : n < 1099511627776 <;>
    by_cases h4 : n < 1125899906842624
  all_goals first
    | (exfalso; omega)
    | (simp [spec_unit_index, h0, h1, h2, h3, h4]; try omega)

theorem spec_unit_index_smaller_ge (n : Nat) :
    ∀ j, j < spec_unit_index n → 1024 ^ (j + 1) ≤ n := by
  intro j hj
  rcases spec_unit_index_pow_le n with h | h
  · omega
  · calc 1024 ^ (j + 1) ≤ 1024 ^ spec_unit_index n :=
          Nat.pow_le_pow_right (by norm_num) (by omega)
      _ ≤ n := h

theorem spec_unit_index_saturates (n : Nat) (h : 1024 ^ 6 ≤ n) :
    spec_unit_index n = 5 := by
  have p6 : (1024:Nat) ^ 6 = 1152921504606846976 := by norm_num
  rw [p6] at h
  have c0 : ¬n < 1024 := by omega
  have c1 : ¬n < 1048576 := by omega
  have c2 : ¬n < 1073741824 := by omega
  have c3 : ¬n < 1099511627776 := by omega
  have c4 : ¬n < 1125899906842624 := by omega
  simp [spec_unit_index, c0, c1, c2, c3, c4]

theorem build_compact_collapse (fs : List FSEntry) (path : List String)
    (entries : List FSEntry) (indent : String) (exclude : List String)
    (git : Option (List (List String))) (depth : Option Int) (current_level : Int) :
    build_tree_entries fs path entries indent exclude git true depth current_level =
      build_tree_entries fs (collapse_single_dirs fs path entries git exclude).1
        (collapse_single_dirs fs path entries git exclude).2 indent exclude git true
        depth current_level := by
  rw [build_tree_entries_unfold, build_tree_entries_unfold]
  simp only [if_pos rfl, if_true, ite_true]
  rw [collapse_idempotent]

theorem entry_isDir_eq_not_isFile (e : FSEntry) : e.isDir = !e.isFile := by
  cases e <;> simp [FSEntry.isDir, FSEntry.isFile]

/-- C1 (counterexample): for the root holding a.txt (10 bytes), b.txt (2000
bytes) and the directory sub holding c.txt (5 bytes), with no exclusion
patterns, no tracking filter, compaction disabled, color disabled, sizes
enabled and unbounded depth, `build_tree_lines` does not return the four plain
lines the claim states: even with color disabled, the source wraps every name
in the `Fore.RESET` and `Style.RESET_ALL` escape sequences. -/
theorem claim_C1_counterexample :
    build_tree_lines
      [FSEntry.dir "sub" [FSEntry.file "c.txt" 5], FSEntry.file "a.txt" 10,
        FSEntry.file "b.txt" 2000]
      []
      [FSEntry.dir "sub" [FSEntry.file "c.txt" 5], FSEntry.file "a.txt" 10,
        FSEntry.file "b.txt" 2000]
      "" [] none false true false none 0 ≠
    ["├── sub", "│   └── c.txt (5.0B)", "├── a.txt (10.0B)", "└── b.txt (2.0KB)"] := by
  decide

/-- C1 (amended): in the same scenario, `build_tree_lines` returns exactly the
four claimed lines in the claimed order, with the claimed connectors,
indentation, names and size suffixes, except that every name carries the
`Fore.RESET` prefix and `Style.RESET_ALL` suffix that the source emits even
when color is disabled. -/
theorem claim_C1_amended :
    build_tree_lines
      [FSEntry.dir "sub" [FSEntry.file "c.txt" 5], FSEntry.file "a.txt" 10,
        FSEntry.file "b.txt" 2000]
      []
      [FSEntry.dir "sub" [FSEntry.file "c.txt" 5], FSEntry.file "a.txt" 10,
        FSEntry.file "b.txt" 2000]
      "" [] none false true false none 0 =
    ["├── " ++ COLOR_FILE ++ "sub" ++ STYLE_RESET_ALL,
     "│   └── " ++ COLOR_FILE ++ "c.txt" ++ STYLE_RESET_ALL ++ " (5.0B)",
     "├── " ++ COLOR_FILE ++ "a.txt" ++ STYLE_RESET_ALL ++ " (10.0B)",
     "└── " ++ COLOR_FILE ++ "b.txt" ++ STYLE_RESET_ALL ++ " (2.0KB)"] := by
  decide

/-- C2: with compaction enabled the builder pre-collapses the start path:
(1) the collapse loop descends one step whenever the filtered listing holds
exactly one directory and no file, (2) it stops as soon as that condition
fails, (3) the condition is false at the returned pair, so the loop collapses
as far as possible and no further, (4) the builder run on a start path equals
the builder run on its collapsed pair, and (5) a nested chain demonstrates
that the collapse is reapplied independently below the root: the inner chain
c/d collapses inside the already-collapsed subtree a/b. -/
theorem claim_C2 :
    (∀ (fs : List FSEntry) (path : List String) (entries : List FSEntry)
        (git : Option (List (List String))) (exclude : List String) (nm : String)
        (ch : List FSEntry),
      ((entries.filter (fun it => !matches_patterns it.name exclude)).filter
          (fun it => track_filter fs git (path ++ [it.name]))).filter FSEntry.isDir
        = [FSEntry.dir nm ch] →
      (((entries.filter (fun it => !matches_patterns it.name exclude)).filter
          (fun it => track_filter fs git (path ++ [it.name]))).filter
            FSEntry.isFile).isEmpty = true →
      collapse_single_dirs fs path entries git exclude =
        collapse_single_dirs fs (path ++ [nm]) ch git exclude) ∧
    (∀ (fs : List FSEntry) (path : List String) (entries : List FSEntry)
        (git : Option (List (List String))) (exclude : List String),
      single_dir_condition fs path entries git exclude = false →
      collapse_single_dirs fs path entries git exclude = (path, entries)) ∧
    (∀ (fs : List FSEntry) (path : List String) (entries : List FSEntry)
        (git : Option (List (List String))) (exclude : List String),
      single_dir_condition fs (collapse_single_dirs fs path entries git exclude).1
        (collapse_single_dirs fs path entries git exclude).2 git exclude = false) ∧
    (∀ (fs : List FSEntry) (path : List String) (entries : List FSEntry)
        (indent : String) (exclude : List String) (git : Option (List (List String)))
        (depth : Option Int) (current_level : Int),
      build_tree_entries fs path entries indent exclude git true depth current_level =
        build_tree_entries fs (collapse_single_dirs fs path entries git exclude).1
          (collapse_single_dirs fs path entries git exclude).2 indent exclude git true
          depth current_level) ∧
    (build_tree_lines
        [FSEntry.dir "a" [FSEntry.dir "b"
          [FSEntry.dir "c" [FSEntry.dir "d" [FSEntry.file "f" 1]], FSEntry.file "g" 2]]]
        []
        [FSEntry.dir "a" [FSEntry.dir "b"
          [FSEntry.dir "c" [FSEntry.dir "d" [FSEntry.file "f" 1]], FSEntry.file "g" 2]]]
        "" [] none false false true none 0 =
      ["├── " ++ COLOR_FILE ++ "c" ++ STYLE_RESET_ALL,
       "│   └── " ++ COLOR_FILE ++ "f" ++ STYLE_RESET_ALL,
       "└── " ++ COLOR_FILE ++ "g" ++ STYLE_RESET_ALL]) := by
  refine ⟨?_, ?_, ?_, ?_, by decide⟩
  · intro fs path entries git exclude nm ch h1 h2
    exact collapse_descend h1 h2
  · intro fs path entries git exclude h
    exact collapse_stop h
  · intro fs path entries git exclude
    exact collapse_post_condition fs git exclude (tsizeList entries) path entries
      (le_refl _)
  · intro fs path entries indent exclude git depth current_level
    exact build_compact_collapse fs path entries indent exclude git depth current_level

/-- C2 (witness): the collapse equations applied at concrete inputs: a root
whose single subdirectory d wraps one file collapses to d, and a root whose
listing holds a file does not collapse. -/
theorem claim_C2_witness :
    collapse_single_dirs [FSEntry.dir "d" [FSEntry.file "x" 1]] []
      [FSEntry.dir "d" [FSEntry.file "x" 1]] none [] =
      (["d"], [FSEntry.file "x" 1]) ∧
    collapse_single_dirs [FSEntry.file "y" 2] [] [FSEntry.file "y" 2] none [] =
      ([], [FSEntry.file "y" 2]) := by
  constructor
  · have h := claim_C2.1 [FSEntry.dir "d" [FSEntry.file "x" 1]] []
      [FSEntry.dir "d" [FSEntry.file "x" 1]] none [] "d" [FSEntry.file "x" 1]
      (by rfl) (by decide)
    rw [h]
    exact claim_C2.2.1 [FSEntry.dir "d" [FSEntry.file "x" 1]] ["d"]
      [FSEntry.file "x" 1] none [] (by decide)
  · exact claim_C2.2.1 [FSEntry.file "y" 2] [] [FSEntry.file "y" 2] none [] (by decide)

/-- C3: with a configured maximum depth N at least 0, every line emitted by the
builder from level 0 has nesting level strictly below N; a call whose current
level already reaches N emits nothing (so a directory at the cutoff is not
descended into and no descendant of it appears), and N = 0 produces the empty
line sequence. -/
theorem claim_C3 :
    ∀ (fs entries : List FSEntry) (indent : String) (exclude : List String)
      (git : Option (List (List String))) (compact : Bool) (N : Int), 0 ≤ N →
    (∀ r ∈ build_tree_entries fs [] entries indent exclude git compact (some N) 0,
      r.level < N) ∧
    (∀ (path : List String) (entries2 : List FSEntry) (indent2 : String) (cl : Int),
      N ≤ cl →
      build_tree_entries fs path entries2 indent2 exclude git compact (some N) cl = [] ∧
      ∀ color show_sizes,
        build_tree_lines fs path entries2 indent2 exclude git color show_sizes compact
          (some N) cl = []) ∧
    (∀ color show_sizes,
      build_tree_lines fs [] entries indent exclude git color show_sizes compact
        (some 0) 0 = []) := by
  intro fs entries indent exclude git compact N hN
  refine ⟨?_, ?_, ?_⟩
  · intro r hr
    exact (build_level_bounds (tsizeList entries) [] entries indent 0 (le_refl _) r hr).2
  · intro path entries2 indent2 cl hcl
    have hg : depth_gate (some N) cl = true := by
      simp only [depth_gate, decide_eq_true_eq]
      exact hcl
    exact ⟨build_gate_empty hg, fun color show_sizes => by
      simp [build_tree_lines, build_gate_empty hg]⟩
  · intro color show_sizes
    have hg : depth_gate (some (0 : Int)) 0 = true := by
      simp [depth_gate]
    simp [build_tree_lines, build_gate_empty hg]

/-- C3 (witness): at maximum depth 1 a nested file line carries level 0 only,
and a call already at the cutoff level emits nothing. -/
theorem claim_C3_witness :
    build_tree_entries [FSEntry.file "x" 1] ["p"] [FSEntry.file "y" 2] "" [] none
      false (some 1) 1 = [] :=
  ((claim_C3 [FSEntry.file "x" 1] [FSEntry.file "x" 1] "" [] none false 1
    (by decide)).2.1 ["p"] [FSEntry.file "y" 2] "" 1 (by decide)).1

/-- C4: the sibling list the builder emits for any directory (its surviving,
sorted children; the builder maps over exactly this list by
`build_tree_entries_unfold`) is chained by the claimed order: any two
consecutive entries are a directory followed by a file, or two entries of the
same kind whose lowercased names are in non-decreasing lexicographic order. -/
theorem claim_C4 :
    ∀ (fs : List FSEntry) (path : List String) (entries : List FSEntry)
      (exclude : List String) (git : Option (List (List String))),
    (surviving_children fs path entries exclude git).Chain'
      (fun a b => (a.isDir = true ∧ b.isFile = true) ∨
        (a.isFile = b.isFile ∧
          str_le (lower_name a.name) (lower_name b.name) = true)) := by
  intro fs path entries exclude git
  refine (surviving_children_chain fs path entries exclude git).imp ?_
  intro a b hab
  unfold key_le at hab
  rcases Bool.or_eq_true_iff.mp hab with h | h
  · rw [Bool.and_eq_true] at h
    rcases h with ⟨ha, hb⟩
    refine Or.inl ⟨?_, hb⟩
    rw [entry_isDir_eq_not_isFile]
    simp only [Bool.not_eq_true'] at ha ⊢
    exact ha
  · rw [Bool.and_eq_true] at h
    rcases h with ⟨ha, hb⟩
    exact Or.inr ⟨beq_iff_eq.mp ha, hb⟩

/-- C5: an empty pattern list excludes nothing, and for every run of the
builder from the root no emitted line carries a name matching any exclusion
pattern; moreover every segment of the absolute path of an emitted entry is a
non-matching name, so nothing beneath an excluded directory ever appears. -/
theorem claim_C5 :
    (∀ name : String, matches_patterns name [] = false) ∧
    (∀ (fs entries : List FSEntry) (indent : String) (exclude : List String)
        (git : Option (List (List String))) (compact : Bool) (depth : Option Int)
        (cl : Int),
      ∀ r ∈ build_tree_entries fs [] entries indent exclude git compact depth cl,
        matches_patterns r.name exclude = false ∧
        ∀ n ∈ r.epath, matches_patterns n exclude = false) := by
  constructor
  · intro name
    simp [matches_patterns]
  · intro fs entries indent exclude git compact depth cl r hr
    rcases build_names_clean (tsizeList entries) [] entries indent cl (le_refl _) r hr
      with ⟨hname, suffix, hsfx, _, hnames⟩
    refine ⟨hname, ?_⟩
    intro n hn
    apply hnames
    simpa [hsfx] using hn

/-- C5 (witness): the single line emitted for a root holding one file x does
not match the exclusion pattern set containing only a non-matching glob. -/
theorem claim_C5_witness :
    matches_patterns
      (LineRec.mk "" true "x" false (some 1) 0 ["x"]).name ["*.md"] = false ∧
    ∀ n ∈ (LineRec.mk "" true "x" false (some 1) 0 ["x"]).epath,
      matches_patterns n ["*.md"] = false :=
  claim_C5.2 [FSEntry.file "x" 1] [FSEntry.file "x" 1] "" ["*.md"] none false none 0
    (LineRec.mk "" true "x" false (some 1) 0 ["x"]) (by decide)

/-- C6: when the tracked set holds only paths that are files of the tree, a
directory path (a path that is not a file) is never a direct member of the set
and survives the tracking filter exactly when it is a segment-wise prefix of
(equal to or an ancestor of) at least one tracked file; and with an empty
tracked set the builder emits zero lines. -/
theorem claim_C6 :
    (∀ (fs : List FSEntry) (g : List (List String)) (ipath : List String),
      (∀ q ∈ g, is_file_path fs q = true) → is_file_path fs ipath = false →
      ipath ∉ g ∧
        (track_filter fs (some g) ipath = true ↔
          ∃ q ∈ g, ipath.isPrefixOf q = true)) ∧
    (∀ (fs : List FSEntry) (path : List String) (entries : List FSEntry)
        (indent : String) (exclude : List String) (compact : Bool)
        (depth : Option Int) (cl : Int) (color show_sizes : Bool),
      build_tree_entries fs path entries indent exclude (some []) compact depth cl
        = [] ∧
      build_tree_lines fs path entries indent exclude (some []) color show_sizes
        compact depth cl = []) := by
  constructor
  · intro fs g ipath hall hdir
    have hnotmem : ipath ∉ g := by
      intro hmem
      have := hall ipath hmem
      rw [hdir] at this
      cases this
    refine ⟨hnotmem, ?_, ?_⟩
    · intro h
      unfold track_filter at h
      rcases Bool.or_eq_true_iff.mp h with h | h
      · exact absurd (by simpa using h) hnotmem
      · rcases List.any_eq_true.mp h with ⟨q, hq, hpred⟩
        rw [Bool.and_eq_true] at hpred
        exact ⟨q, hq, hpred.2⟩
    · rintro ⟨q, hq, hpre⟩
      unfold track_filter
      apply Bool.or_eq_true_iff.mpr
      right
      exact List.any_eq_true.mpr ⟨q, hq, by simp [hall q hq, hpre]⟩
  · intro fs path entries indent exclude compact depth cl color show_sizes
    refine ⟨build_empty_tracked fs path entries indent exclude compact depth cl, ?_⟩
    simp [build_tree_lines, build_empty_tracked]

/-- C6 (witness): in the tree with directory d holding the tracked file d/f,
the directory path d is not a member of the tracked set and survives the
filter precisely as an ancestor of the tracked file. -/
theorem claim_C6_witness :
    ["d"] ∉ [[("d" : String), "f"]] ∧
    (track_filter [FSEntry.dir "d" [FSEntry.file "f" 1]] (some [["d", "f"]]) ["d"]
        = true ↔
      ∃ q ∈ [[("d" : String), "f"]], List.isPrefixOf ["d"] q = true) :=
  claim_C6.1 [FSEntry.dir "d" [FSEntry.file "f" 1]] [["d", "f"]] ["d"]
    (by decide) (by decide)

/-- C7 (counterexample): when the git executable is absent, `subprocess.run`
raises `FileNotFoundError`, which the source does not catch (its only handler
is for `subprocess.CalledProcessError`), so `get_git_tracked_files` propagates
the exception instead of returning an empty set. -/
theorem claim_C7_counterexample :
    get_git_tracked_files [] GitQueryOutcome.fileNotFoundError =
      Except.error "FileNotFoundError" := rfl

/-- C7 (amended): on a non-zero exit status of the git command, including a
root that is not a repository, `get_git_tracked_files` returns the empty set
rather than raising; on a zero exit it returns the resolved tracked paths; but
an absent git executable raises `FileNotFoundError`, which propagates. -/
theorem claim_C7_amended :
    ∀ (root : List String) (ls : List String),
    get_git_tracked_files root GitQueryOutcome.calledProcessError = Except.ok [] ∧
    get_git_tracked_files root GitQueryOutcome.fileNotFoundError =
      Except.error "FileNotFoundError" ∧
    get_git_tracked_files root (GitQueryOutcome.ok ls) =
      Except.ok (ls.map (fun line => root ++ (line.trim.splitOn "/"))) := by
  intro root ls
  exact ⟨rfl, rfl, rfl⟩

/-- C9: the size formatter picks the unit of index `spec_unit_index n`, the
smallest unit whose scaled value n / 1024 ^ i is below 1024 (conjunct two),
while every smaller unit would scale to at least 1024 (conjunct three), and it
prints the scaled value with one decimal digit via `format_one_decimal`; from
1024 PB on the unit saturates at PB; the four concrete examples of the claim
hold. (The comparison n < 1024 ^ (i + 1) is the exact form of
n / 1024 ^ i < 1024 over the rationals.) -/
theorem claim_C9 :
    (human_readable_size 0 = "0.0B" ∧ human_readable_size 1023 = "1023.0B" ∧
      human_readable_size 1024 = "1.0KB" ∧ human_readable_size 1048576 = "1.0MB") ∧
    ∀ n : Nat,
      human_readable_size n =
        format_one_decimal n (spec_unit_index n) ++ spec_unit_name (spec_unit_index n) ∧
      (spec_unit_index n < 5 → n < 1024 ^ (spec_unit_index n + 1)) ∧
      (∀ j, j < spec_unit_index n → 1024 ^ (j + 1) ≤ n) ∧
      (1024 ^ 6 ≤ n → spec_unit_index n = 5) := by
  refine ⟨⟨by decide, by decide, by decide, by decide⟩, ?_⟩
  intro n
  exact ⟨hrs_unit_eq n, spec_unit_index_scaled_lt n, spec_unit_index_smaller_ge n,
    spec_unit_index_saturates n⟩

/-- C9 (witness): one kibibyte scales to at least 1024 in the byte unit below
the chosen KB unit, and 1024 PB saturates at the PB unit. -/
theorem claim_C9_witness :
    1024 ^ (0 + 1) ≤ 2048 ∧ spec_unit_index (1024 ^ 6) = 5 :=
  ⟨(claim_C9.2 2048).2.2.1 0 (by decide), (claim_C9.2 (1024 ^ 6)).2.2.2 (le_refl _)⟩

/-- C10: a negative configured depth N behaves exactly like depth 0: the
per-child gate current_level at least N already holds at level 0, so the
builder emits zero lines for every root. -/
theorem claim_C10 :
    ∀ (fs entries : List FSEntry) (indent : String) (exclude : List String)
      (git : Option (List (List String))) (color show_sizes compact : Bool)
      (N : Int), N < 0 →
    build_tree_lines fs [] entries indent exclude git color show_sizes compact
      (some N) 0 = [] ∧
    build_tree_lines fs [] entries indent exclude git color show_sizes compact
      (some N) 0 =
      build_tree_lines fs [] entries indent exclude git color show_sizes compact
        (some 0) 0 := by
  intro fs entries indent exclude git color show_sizes compact N hN
  have h1 : depth_gate (some N) 0 = true := by
    simp only [depth_gate, decide_eq_true_eq]
    omega
  have h2 : depth_gate (some (0 : Int)) 0 = true := by
    simp [depth_gate]
  constructor <;>
    simp [build_tree_lines, build_gate_empty h1, build_gate_empty h2]

/-- C10 (witness): depth -1 on a one-file root emits nothing. -/
theorem claim_C10_witness :
    build_tree_lines [FSEntry.file "x" 1] [] [FSEntry.file "x" 1] "" [] none true
      true false (some (-1)) 0 = [] :=
  (claim_C10 [FSEntry.file "x" 1] [FSEntry.file "x" 1] "" [] none true true false
    (-1) (by decide)).1

/-! Machinery for the determinism claim: tree equivalence up to listing order. -/

theorem remove_first_by_congr {p q : FSEntry → Bool} (h : ∀ y, p y = q y) :
    ∀ ys, remove_first_by p ys = remove_first_by q ys := by
  intro ys
  induction ys with
  | nil => rfl
  | cons y ys ih =>
      simp only [remove_first_by, h y, ih]

theorem eqv_list_by_congr {eq1 eq2 : FSEntry → FSEntry → Bool} :
    ∀ (l m : List FSEntry), (∀ x ∈ l, ∀ y, eq1 x y = eq2 x y) →
    eqv_list_by eq1 l m = eqv_list_by eq2 l m := by
  intro l
  induction l with
  | nil => intro m _; cases m <;> rfl
  | cons x xs ih =>
      intro m h
      have hrf : remove_first_by (fun y => eq1 x y) m =
          remove_first_by (fun y => eq2 x y) m :=
        remove_first_by_congr (fun y => h x (List.mem_cons_self x xs) y) m
      simp only [eqv_list_by, hrf]
      cases hr : remove_first_by (fun y => eq2 x y) m with
      | none => rfl
      | some ys2 => exact ih ys2 (fun z hz y => h z (List.mem_cons_of_mem x hz) y)

theorem eqv_go_congr : ∀ (k f1 f2 : Nat) (a b : FSEntry),
    FSEntry.tsize a ≤ k → FSEntry.tsize a ≤ f1 → FSEntry.tsize a ≤ f2 →
    eqv_go f1 a b = eqv_go f2 a b := by
  intro k
  induction k using Nat.strong_induction_on with
  | _ k ih =>
      intro f1 f2 a b hk h1 h2
      have hpos := tsize_pos a
      cases f1 with
      | zero => omega
      | succ n =>
          cases f2 with
          | zero => omega
          | succ m =>
              cases a with
              | file nm s => cases b <;> simp [eqv_go]
              | dir nm l =>
                  cases b with
                  | file nm2 s2 => simp [eqv_go]
                  | dir nm2 l2 =>
                      simp only [eqv_go]
                      have hsz : FSEntry.tsize (FSEntry.dir nm l) = 1 + tsizeList l := rfl
                      have hlist : eqv_list_by (eqv_go n) l l2 =
                          eqv_list_by (eqv_go m) l l2 := by
                        apply eqv_list_by_congr
                        intro x hx y
                        have hxle := tsize_le_of_mem hx
                        exact ih (FSEntry.tsize x) (by omega) n m x y (le_refl _)
                          (by omega) (by omega)
                      rw [hlist]

theorem eqv_file_iff (n m : String) (s t : Nat) :
    FSEntry.eqv (FSEntry.file n s) (FSEntry.file m t) = (n == m && s == t) := by
  simp [FSEntry.eqv, eqv_go]

theorem eqv_mixed_fd (n m : String) (s : Nat) (k : List FSEntry) :
    FSEntry.eqv (FSEntry.file n s) (FSEntry.dir m k) = false := by
  simp [FSEntry.eqv, eqv_go]

theorem eqv_mixed_df (n m : String) (s : Nat) (k : List FSEntry) :
    FSEntry.eqv (FSEntry.dir n k) (FSEntry.file m s) = false := by
  simp [FSEntry.eqv, eqv_go]

theorem eqv_dir_eq (n m : String) (l k : List FSEntry) :
    FSEntry.eqv (FSEntry.dir n l) (FSEntry.dir m k) =
      (n == m && eqv_list_by FSEntry.eqv l k) := by
  have h1 : FSEntry.eqv (FSEntry.dir n l) (FSEntry.dir m k) =
      (n == m && eqv_list_by (eqv_go (FSEntry.tsize (FSEntry.dir n l))) l k) := by
    rw [FSEntry.eqv]
    rfl
  rw [h1]
  have h2 : eqv_list_by (eqv_go (FSEntry.tsize (FSEntry.dir n l))) l k =
      eqv_list_by FSEntry.eqv l k := by
    apply eqv_list_by_congr
    intro x hx y
    have hxle := tsize_le_of_mem hx
    have hsz : FSEntry.tsize (FSEntry.dir n l) = 1 + tsizeList l := rfl
    rw [FSEntry.eqv]
    exact eqv_go_congr (FSEntry.tsize x) (FSEntry.tsize (FSEntry.dir n l))
      (FSEntry.tsize x + 1) x y (le_refl _) (by omega) (by omega)
  rw [h2]

theorem eqv_list_eq (l m : List FSEntry) :
    eqv_list l m = eqv_list_by FSEntry.eqv l m := by
  apply eqv_list_by_congr
  intro x hx y
  have hxle := tsize_le_of_mem hx
  rw [FSEntry.eqv]
  exact eqv_go_congr (FSEntry.tsize x) (tsizeList l + 1) (FSEntry.tsize x + 1) x y
    (le_refl _) (by omega) (by omega)

theorem eqv_elim {a b : FSEntry} (h : FSEntry.eqv a b = true) :
    a.name = b.name ∧ a.isFile = b.isFile ∧ a.sizeOpt = b.sizeOpt := by
  cases a with
  | file n s =>
      cases b with
      | file m t =>
          rw [eqv_file_iff, Bool.and_eq_true] at h
          rcases h with ⟨h1, h2⟩
          simp [FSEntry.name, FSEntry.isFile, FSEntry.sizeOpt, beq_iff_eq.mp h1,
            beq_iff_eq.mp h2]
      | dir m k => rw [eqv_mixed_fd] at h; cases h
  | dir n l =>
      cases b with
      | file m t => rw [eqv_mixed_df] at h; cases h
      | dir m k =>
          rw [eqv_dir_eq, Bool.and_eq_true] at h
          simp [FSEntry.name, FSEntry.isFile, FSEntry.sizeOpt, beq_iff_eq.mp h.1]

theorem eqv_dir_elim {n : String} {ch : List FSEntry} {b : FSEntry}
    (h : FSEntry.eqv (FSEntry.dir n ch) b = true) :
    ∃ ch2, b = FSEntry.dir n ch2 ∧ eqv_list_by FSEntry.eqv ch ch2 = true := by
  cases b with
  | file m t => rw [eqv_mixed_df] at h; cases h
  | dir m k =>
      rw [eqv_dir_eq, Bool.and_eq_true] at h
      exact ⟨k, by rw [beq_iff_eq.mp h.1], h.2⟩

theorem eqv_key_eq {a b : FSEntry} (h : FSEntry.eqv a b = true) :
    entry_key a = entry_key b := by
  rcases eqv_elim h with ⟨h1, h2, _⟩
  simp [entry_key, h1, h2]

theorem remove_first_by_spec {p : FSEntry → Bool} :
    ∀ {ys ys2 : List FSEntry}, remove_first_by p ys = some ys2 →
    ∃ pre y post, ys = pre ++ y :: post ∧ p y = true ∧ ys2 = pre ++ post := by
  intro ys
  induction ys with
  | nil => intro ys2 h; cases h
  | cons y ys ih =>
      intro ys2 h
      rw [remove_first_by] at h
      split at h
      · rename_i hpy
        exact ⟨[], y, ys, by simp, hpy, by simpa using h.symm⟩
      · rename_i hpy
        cases hr : remove_first_by p ys with
        | none => rw [hr] at h; cases h
        | some ys3 =>
            rw [hr] at h
            rcases ih hr with ⟨pre, z, post, hys, hpz, hys3⟩
            refine ⟨y :: pre, z, post, by simp [hys], hpz, ?_⟩
            have : ys2 = y :: ys3 := by simpa using h.symm
            simp [this, hys3]

theorem eqv_list_by_decomp :
    ∀ {l m : List FSEntry}, eqv_list_by FSEntry.eqv l m = true →
    ∃ t, List.Forall₂ (fun a b => FSEntry.eqv a b = true) l t ∧ t.Perm m := by
  intro l
  induction l with
  | nil =>
      intro m h
      cases m with
      | nil => exact ⟨[], List.Forall₂.nil, List.Perm.refl _⟩
      | cons y ys => simp [eqv_list_by] at h
  | cons x xs ih =>
      intro m h
      rw [eqv_list_by] at h
      cases hr : remove_first_by (fun y => FSEntry.eqv x y) m with
      | none => rw [hr] at h; cases h
      | some ys2 =>
          rw [hr] at h
          rcases remove_first_by_spec hr with ⟨pre, y, post, hm, hxy, hys2⟩
          rcases ih h with ⟨t, hF, hP⟩
          refine ⟨y :: t, List.Forall₂.cons hxy hF, ?_⟩
          subst hm
          subst hys2
          exact List.Perm.trans (hP.cons y) List.perm_middle.symm

theorem forall₂_perm_left {R : FSEntry → FSEntry → Prop} {l l2 t : List FSEntry}
    (hperm : l.Perm l2) (hF : List.Forall₂ R l t) :
    ∃ t2, List.Forall₂ R l2 t2 ∧ t.Perm t2 := by
  induction hperm generalizing t with
  | nil =>
      cases hF
      exact ⟨[], List.Forall₂.nil, List.Perm.refl _⟩
  | cons x p ih =>
      cases hF with
      | cons hxb hF2 =>
          rcases ih hF2 with ⟨t2, hF3, hP⟩
          exact ⟨_ :: t2, List.Forall₂.cons hxb hF3, hP.cons _⟩
  | swap x y l =>
      cases hF with
      | cons hyb hF2 =>
          cases hF2 with
          | cons hxc hF3 =>
              exact ⟨_ :: _ :: _, List.Forall₂.cons hxc (List.Forall₂.cons hyb hF3),
                List.Perm.swap _ _ _⟩
  | trans p1 p2 ih1 ih2 =>
      rcases ih1 hF with ⟨t2, hF2, hP2⟩
      rcases ih2 hF2 with ⟨t3, hF3, hP3⟩
      exact ⟨t3, hF3, hP2.trans hP3⟩

theorem forall₂_filter {R : FSEntry → FSEntry → Prop} {p q : FSEntry → Bool}
    {l m : List FSEntry} (hF : List.Forall₂ R l m)
    (hpq : ∀ a b, R a b → p a = q b) :
    List.Forall₂ R (l.filter p) (m.filter q) := by
  induction hF with
  | nil => simp [List.Forall₂.nil]
  | cons hab hF2 ih =>
      rename_i a b l2 m2
      rw [List.filter_cons, List.filter_cons, ← hpq a b hab]
      cases p a with
      | true => simpa using List.Forall₂.cons hab ih
      | false => simpa using ih

theorem forall₂_mem_right {R : FSEntry → FSEntry → Prop} {l t : List FSEntry}
    (hF : List.Forall₂ R l t) {c : FSEntry} (hc : c ∈ t) :
    ∃ x ∈ l, R x c := by
  induction hF with
  | nil => cases hc
  | cons hab hF2 ih =>
      rename_i a b l2 m2
      rcases List.mem_cons.mp hc with h1 | h2
      · subst h1; exact ⟨a, List.mem_cons_self _ _, hab⟩
      · rcases ih h2 with ⟨x, hx, hR⟩
        exact ⟨x, List.mem_cons_of_mem _ hx, hR⟩

theorem forall₂_enumFrom {R : FSEntry → FSEntry → Prop} {l m : List FSEntry}
    (hF : List.Forall₂ R l m) :
    ∀ i, List.Forall₂ (fun x y => x.1 = y.1 ∧ R x.2 y.2)
      (l.enumFrom i) (m.enumFrom i) := by
  induction hF with
  | nil => intro i; exact List.Forall₂.nil
  | cons hab hF2 ih =>
      intro i
      exact List.Forall₂.cons ⟨rfl, hab⟩ (ih (i + 1))

theorem map_eq_of_forall₂ {α : Type} {S : α → α → Prop} {f g : α → List LineRec} :
    ∀ {l m : List α}, List.Forall₂ S l m → (∀ x y, S x y → f x = g y) →
    l.map f = m.map g := by
  intro l m hF hfg
  induction hF with
  | nil => rfl
  | cons hab hF2 ih =>
      simp only [List.map_cons, hfg _ _ hab, ih]

theorem map_name_eq_of_forall₂ {l t : List FSEntry}
    (hF : List.Forall₂ (fun a b => FSEntry.eqv a b = true) l t) :
    l.map FSEntry.name = t.map FSEntry.name := by
  induction hF with
  | nil => rfl
  | cons hab hF2 ih =>
      simp only [List.map_cons, ih, (eqv_elim hab).1]

theorem keys_nodup_iff (l : List FSEntry) :
    keys_nodup l = true ↔ (l.map entry_key).Nodup := by
  induction l with
  | nil => simp [keys_nodup]
  | cons e es ih =>
      rw [keys_nodup, Bool.and_eq_true, ih]
      simp only [List.map_cons, List.nodup_cons, List.mem_map]
      constructor
      · rintro ⟨h1, h2⟩
        refine ⟨?_, h2⟩
        rintro ⟨x, hx, hk⟩
        have : es.any (fun x => decide (entry_key x = entry_key e)) = true :=
          List.any_eq_true.mpr ⟨x, hx, by simp [hk]⟩
        simp [this] at h1
      · rintro ⟨h1, h2⟩
        refine ⟨?_, h2⟩
        simp only [Bool.not_eq_true']
        rw [Bool.eq_false_iff]
        intro hany
        rcases List.any_eq_true.mp hany with ⟨x, hx, hk⟩
        exact h1 ⟨x, hx, of_decide_eq_true hk⟩

theorem names_nodup_iff (l : List FSEntry) :
    names_nodup l = true ↔ (l.map FSEntry.name).Nodup := by
  induction l with
  | nil => simp [names_nodup]
  | cons e es ih =>
      rw [names_nodup, Bool.and_eq_true, ih]
      simp only [List.map_cons, List.nodup_cons, List.mem_map]
      constructor
      · rintro ⟨h1, h2⟩
        refine ⟨?_, h2⟩
        rintro ⟨x, hx, hk⟩
        have : es.any (fun x => x.name == e.name) = true :=
          List.any_eq_true.mpr ⟨x, hx, by simp [hk]⟩
        simp [this] at h1
      · rintro ⟨h1, h2⟩
        refine ⟨?_, h2⟩
        simp only [Bool.not_eq_true']
        rw [Bool.eq_false_iff]
        intro hany
        rcases List.any_eq_true.mp hany with ⟨x, hx, hk⟩
        exact h1 ⟨x, hx, beq_iff_eq.mp hk⟩

theorem key_le_pair (a b : FSEntry) :
    key_le a b = ((!(entry_key a).1 && (entry_key b).1) ||
      (((entry_key a).1 == (entry_key b).1) &&
        str_le (entry_key a).2 (entry_key b).2)) := rfl

theorem key_le_congr_left {a a2 b : FSEntry} (h : entry_key a = entry_key a2) :
    key_le a b = key_le a2 b := by
  rw [key_le_pair, key_le_pair, h]

theorem key_le_congr_right {a b b2 : FSEntry} (h : entry_key b = entry_key b2) :
    key_le a b = key_le a b2 := by
  rw [key_le_pair, key_le_pair, h]

theorem list_all_congr {f g : FSEntry → Bool} :
    ∀ (l : List FSEntry), (∀ x ∈ l, f x = g x) → l.all f = l.all g := by
  intro l
  induction l with
  | nil => intro _; rfl
  | cons x xs ih =>
      intro h
      simp only [List.all_cons, h x (List.mem_cons_self _ _),
        ih (fun z hz => h z (List.mem_cons_of_mem _ hz))]

theorem list_any_congr {α : Type} {f g : α → Bool} :
    ∀ (l : List α), (∀ x ∈ l, f x = g x) → l.any f = l.any g := by
  intro l
  induction l with
  | nil => intro _; rfl
  | cons x xs ih =>
      intro h
      simp only [List.any_cons, h x (List.mem_cons_self _ _),
        ih (fun z hz => h z (List.mem_cons_of_mem _ hz))]

theorem sorted_unique_forall₂ :
    ∀ (l₁ l₂ t : List FSEntry),
    List.Forall₂ (fun a b => FSEntry.eqv a b = true) l₁ t → t.Perm l₂ →
    l₁.Pairwise (fun a b => key_le a b = true) →
    l₂.Pairwise (fun a b => key_le a b = true) →
    (l₁.map entry_key).Nodup →
    List.Forall₂ (fun a b => FSEntry.eqv a b = true) l₁ l₂ := by
  intro l₁
  induction l₁ with
  | nil =>
      intro l₂ t hF hP _ _ _
      cases hF
      rw [(List.Perm.symm hP).eq_nil]
      exact List.Forall₂.nil
  | cons a l₁ ih =>
      intro l₂ t hF hP hs1 hs2 hnd
      cases hF with
      | cons hab hF2 =>
          rename_i b tb
          cases l₂ with
          | nil =>
              have := hP.length_eq
              simp at this
          | cons c l₂r =>
              have hbc : b = c := by
                by_contra hbc
                have hbm : b ∈ c :: l₂r := hP.subset (List.mem_cons_self b tb)
                have hbr : b ∈ l₂r := by
                  rcases List.mem_cons.mp hbm with h1 | h2
                  · exact absurd h1 hbc
                  · exact h2
                have hcm : c ∈ b :: tb := hP.symm.subset (List.mem_cons_self c l₂r)
                have hct : c ∈ tb := by
                  rcases List.mem_cons.mp hcm with h1 | h2
                  · exact absurd h1.symm hbc
                  · exact h2
                rcases forall₂_mem_right hF2 hct with ⟨x, hx, hxc⟩
                have hkab : entry_key a = entry_key b := eqv_key_eq hab
                have hkxc : entry_key x = entry_key c := eqv_key_eq hxc
                have hax : key_le a x = true := (List.pairwise_cons.mp hs1).1 x hx
                have hcb : key_le c b = true := (List.pairwise_cons.mp hs2).1 b hbr
                have hca : key_le c a = true := by
                  rw [key_le_congr_right hkab]
                  exact hcb
                have hxa : key_le x a = true := by
                  rw [key_le_congr_left hkxc]
                  exact hca
                have hkey : entry_key a = entry_key x := key_le_antisymm a x hax hxa
                simp only [List.map_cons] at hnd
                rcases List.nodup_cons.mp hnd with ⟨hnotin, _⟩
                exact hnotin (List.mem_map.mpr ⟨x, hx, hkey.symm⟩)
              subst hbc
              refine List.Forall₂.cons hab ?_
              exact ih l₂r tb hF2 (hP.cons_inv) (List.pairwise_cons.mp hs1).2
                (List.pairwise_cons.mp hs2).2
                (by simp only [List.map_cons] at hnd
                    exact (List.nodup_cons.mp hnd).2)

theorem surviving_transport {fs₁ fs₂ : List FSEntry} {git : Option (List (List String))}
    {exclude : List String} {path : List String} {e₁ e₂ : List FSEntry}
    (htrack : ∀ p, track_filter fs₁ git p = track_filter fs₂ git p)
    (hEq : ∃ t, List.Forall₂ (fun a b => FSEntry.eqv a b = true) e₁ t ∧ t.Perm e₂)
    (hkeys : keys_nodup e₁ = true) :
    List.Forall₂ (fun a b => FSEntry.eqv a b = true)
      (surviving_children fs₁ path e₁ exclude git)
      (surviving_children fs₂ path e₂ exclude git) := by
  rcases hEq with ⟨t, hF, hP⟩
  have hFf : List.Forall₂ (fun a b => FSEntry.eqv a b = true)
      (e₁.filter (fun it => !matches_patterns it.name exclude))
      (t.filter (fun it => !matches_patterns it.name exclude)) :=
    forall₂_filter hF (fun a b hab => by rw [(eqv_elim hab).1])
  have hPf : (t.filter (fun it => !matches_patterns it.name exclude)).Perm
      (e₂.filter (fun it => !matches_patterns it.name exclude)) :=
    hP.filter _
  rcases forall₂_perm_left
      (py_sorted_perm key_le (e₁.filter (fun it => !matches_patterns it.name exclude))).symm
      hFf with ⟨t2, hFs, hPt2⟩
  have hPt2s : t2.Perm (py_sorted key_le
      (e₂.filter (fun it => !matches_patterns it.name exclude))) :=
    hPt2.symm.trans (hPf.trans
      (py_sorted_perm key_le (e₂.filter (fun it => !matches_patterns it.name exclude))).symm)
  have hnd0 : ((e₁.filter (fun it => !matches_patterns it.name exclude)).map
      entry_key).Nodup :=
    List.Nodup.sublist (List.Sublist.map entry_key (List.filter_sublist e₁))
      ((keys_nodup_iff e₁).mp hkeys)
  have hnd1 : ((py_sorted key_le
      (e₁.filter (fun it => !matches_patterns it.name exclude))).map entry_key).Nodup :=
    ((py_sorted_perm key_le _).map entry_key).nodup_iff.mpr hnd0
  have hFs2 := sorted_unique_forall₂ _ _ t2 hFs hPt2s
    (pairwise_py_sorted key_le_total key_le_trans _)
    (pairwise_py_sorted key_le_total key_le_trans _) hnd1
  unfold surviving_children
  exact forall₂_filter hFs2 (fun a b hab => by rw [(eqv_elim hab).1, htrack])

theorem wf_go_congr : ∀ (k f1 f2 : Nat) (e : FSEntry),
    FSEntry.tsize e ≤ k → FSEntry.tsize e ≤ f1 → FSEntry.tsize e ≤ f2 →
    wf_go f1 e = wf_go f2 e := by
  intro k
  induction k using Nat.strong_induction_on with
  | _ k ih =>
      intro f1 f2 e hk h1 h2
      have hpos := tsize_pos e
      cases f1 with
      | zero => omega
      | succ n =>
          cases f2 with
          | zero => omega
          | succ m =>
              cases e with
              | file nm s => rfl
              | dir nm ch =>
                  simp only [wf_go]
                  have hsz : FSEntry.tsize (FSEntry.dir nm ch) = 1 + tsizeList ch := rfl
                  have hall : ch.all (wf_go n) = ch.all (wf_go m) := by
                    apply list_all_congr
                    intro x hx
                    have hxle := tsize_le_of_mem hx
                    exact ih (FSEntry.tsize x) (by omega) n m x (le_refl _) (by omega)
                      (by omega)
                  rw [hall]

theorem wf_list_names {l : List FSEntry} (hwf : wf_list l = true) :
    names_nodup l = true := by
  rw [wf_list] at hwf
  rw [Bool.and_eq_true, Bool.and_eq_true] at hwf
  exact hwf.1.1

theorem wf_list_keys {l : List FSEntry} (hwf : wf_list l = true) :
    keys_nodup l = true := by
  rw [wf_list] at hwf
  rw [Bool.and_eq_true, Bool.and_eq_true] at hwf
  exact hwf.1.2

theorem wf_list_dir_child {l : List FSEntry} {n : String} {ch : List FSEntry}
    (hwf : wf_list l = true) (hmem : FSEntry.dir n ch ∈ l) : wf_list ch = true := by
  rw [wf_list] at hwf
  rw [Bool.and_eq_true, Bool.and_eq_true] at hwf
  have hgo := List.all_eq_true.mp hwf.2 _ hmem
  have hsz : FSEntry.tsize (FSEntry.dir n ch) ≤ tsizeList l := tsize_le_of_mem hmem
  have hsz2 : FSEntry.tsize (FSEntry.dir n ch) = 1 + tsizeList ch := rfl
  simp only [wf_go] at hgo
  rw [Bool.and_eq_true, Bool.and_eq_true] at hgo
  rw [wf_list]
  rw [Bool.and_eq_true, Bool.and_eq_true]
  refine ⟨⟨hgo.1.1, hgo.1.2⟩, ?_⟩
  rw [list_all_congr ch (fun x hx => ?_)]
  · exact hgo.2
  · have hxle := tsize_le_of_mem hx
    exact wf_go_congr (FSEntry.tsize x) (tsizeList ch + 1) (tsizeList l) x (le_refl _)
      (by omega) (by omega)

theorem nodup_map_inj {f : FSEntry → String} :
    ∀ {l : List FSEntry}, (l.map f).Nodup →
    ∀ x ∈ l, ∀ y ∈ l, f x = f y → x = y := by
  intro l
  induction l with
  | nil => intro _ x hx; cases hx
  | cons z zs ih =>
      intro hnd x hx y hy hfx
      simp only [List.map_cons, List.nodup_cons] at hnd
      rcases List.mem_cons.mp hx with hx1 | hx2 <;>
        rcases List.mem_cons.mp hy with hy1 | hy2
      · rw [hx1, hy1]
      · subst hx1
        exact absurd (List.mem_map.mpr ⟨y, hy2, hfx.symm⟩) hnd.1
      · subst hy1
        exact absurd (List.mem_map.mpr ⟨x, hx2, hfx⟩) hnd.1
      · exact ih hnd.2 x hx2 y hy2 hfx

theorem forall₂_find_name {l t : List FSEntry}
    (hF : List.Forall₂ (fun a b => FSEntry.eqv a b = true) l t) (nm : String) :
    (l.find? (fun e => e.name == nm) = none ∧
      t.find? (fun e => e.name == nm) = none) ∨
    (∃ a b, l.find? (fun e => e.name == nm) = some a ∧
      t.find? (fun e => e.name == nm) = some b ∧ FSEntry.eqv a b = true) := by
  induction hF with
  | nil => left; exact ⟨rfl, rfl⟩
  | cons hab hF2 ih =>
      rename_i a b l2 t2
      have hname := (eqv_elim hab).1
      by_cases hpa : (a.name == nm) = true
      · right
        have hpb : (b.name == nm) = true := by rw [← hname]; exact hpa
        refine ⟨a, b, ?_, ?_, hab⟩
        · rw [List.find?_cons]
          simp [hpa]
        · rw [List.find?_cons]
          simp [hpb]
      · have hpb : ¬(b.name == nm) = true := by rw [← hname]; exact hpa
        rw [Bool.not_eq_true] at hpa hpb
        rw [List.find?_cons, List.find?_cons, hpa, hpb]
        exact ih

theorem find?_perm_nodup {t m : List FSEntry} (hP : t.Perm m)
    (hnd : (t.map FSEntry.name).Nodup) (nm : String) :
    t.find? (fun e => e.name == nm) = m.find? (fun e => e.name == nm) := by
  cases hf : t.find? (fun e => e.name == nm) with
  | none =>
      have hnone := List.find?_eq_none.mp hf
      symm
      apply List.find?_eq_none.mpr
      intro x hx
      exact hnone x (hP.symm.subset hx)
  | some a =>
      have hpa : (a.name == nm) = true :=
        List.find?_some (p := fun (e : FSEntry) => e.name == nm) hf
      have ham : a ∈ t := List.mem_of_find?_eq_some hf
      cases hg : m.find? (fun e => e.name == nm) with
      | none =>
          have := List.find?_eq_none.mp hg a (hP.subset ham)
          simp [hpa] at this
      | some b =>
          have hpb : (b.name == nm) = true :=
            List.find?_some (p := fun (e : FSEntry) => e.name == nm) hg
          have hbm : b ∈ m := List.mem_of_find?_eq_some hg
          have hbt : b ∈ t := hP.symm.subset hbm
          have hnab : a.name = b.name := by
            rw [beq_iff_eq.mp hpa, beq_iff_eq.mp hpb]
          rw [nodup_map_inj hnd a ham b hbt hnab]

theorem fs_lookup_transport : ∀ (p : List String) (l₁ l₂ : List FSEntry),
    eqv_list_by FSEntry.eqv l₁ l₂ = true → wf_list l₁ = true →
    ((fs_lookup l₁ p = none ∧ fs_lookup l₂ p = none) ∨
     (∃ a b, fs_lookup l₁ p = some a ∧ fs_lookup l₂ p = some b ∧
       FSEntry.eqv a b = true)) := by
  intro p
  induction p with
  | nil => intro l₁ l₂ _ _; left; exact ⟨rfl, rfl⟩
  | cons n rest ih =>
      intro l₁ l₂ heqv hwf
      rcases eqv_list_by_decomp heqv with ⟨t, hF, hP⟩
      have hndn : (l₁.map FSEntry.name).Nodup :=
        (names_nodup_iff l₁).mp (wf_list_names hwf)
      have hndt : (t.map FSEntry.name).Nodup := by
        rw [← map_name_eq_of_forall₂ hF]
        exact hndn
      have hperm := find?_perm_nodup hP hndt n
      cases rest with
      | nil =>
          simp only [fs_lookup]
          rcases forall₂_find_name hF n with ⟨h1, h2⟩ | ⟨a, b, h1, h2, hab⟩
          · left
            exact ⟨h1, by rw [← hperm]; exact h2⟩
          · right
            exact ⟨a, b, h1, by rw [← hperm]; exact h2, hab⟩
      | cons r2 rs =>
          simp only [fs_lookup]
          rcases forall₂_find_name hF n with ⟨h1, h2⟩ | ⟨a, b, h1, h2, hab⟩
          · left
            rw [h1, ← hperm, h2]
            exact ⟨rfl, rfl⟩
          · have h2m : l₂.find? (fun e => e.name == n) = some b := by
              rw [← hperm]; exact h2
            rw [h1, h2m]
            cases a with
            | file nm s =>
                rcases eqv_elim hab with ⟨_, hkind, _⟩
                cases b with
                | file nm2 s2 => left; exact ⟨rfl, rfl⟩
                | dir nm2 ch2 => simp [FSEntry.isFile] at hkind
            | dir nm ch =>
                rcases eqv_dir_elim hab with ⟨ch2, hb, hch⟩
                subst hb
                exact ih ch ch2 hch
                  (wf_list_dir_child hwf (List.mem_of_find?_eq_some h1))

theorem is_file_path_transport {fs₁ fs₂ : List FSEntry}
    (heqv : eqv_list_by FSEntry.eqv fs₁ fs₂ = true) (hwf : wf_list fs₁ = true)
    (p : List String) : is_file_path fs₁ p = is_file_path fs₂ p := by
  unfold is_file_path
  rcases fs_lookup_transport p fs₁ fs₂ heqv hwf with ⟨h1, h2⟩ | ⟨a, b, h1, h2, hab⟩
  · rw [h1, h2]
  · rw [h1, h2]
    rcases eqv_elim hab with ⟨_, hkind, _⟩
    cases a <;> cases b <;> simp [FSEntry.isFile] at hkind ⊢

theorem track_filter_transport {fs₁ fs₂ : List FSEntry}
    (heqv : eqv_list_by FSEntry.eqv fs₁ fs₂ = true) (hwf : wf_list fs₁ = true)
    (git : Option (List (List String))) (p : List String) :
    track_filter fs₁ git p = track_filter fs₂ git p := by
  cases git with
  | none => rfl
  | some g =>
      simp only [track_filter]
      rw [list_any_congr g (fun q _ => by
        rw [is_file_path_transport heqv hwf q])]

theorem wf_collapse (fs : List FSEntry) (git : Option (List (List String)))
    (exclude : List String) :
    ∀ (k : Nat) (path : List String) (e : List FSEntry), tsizeList e ≤ k →
    wf_list e = true →
    wf_list (collapse_single_dirs fs path e git exclude).2 = true := by
  intro k
  induction k using Nat.strong_induction_on with
  | _ k ih =>
      intro path e hk hwf
      by_cases hcond : single_dir_condition fs path e git exclude = true
      · rcases single_dir_condition_true_elim hcond with ⟨nm, ch, heqd, heqf⟩
        rw [collapse_descend heqd heqf]
        have hch := collapse_branch_tsize heqd
        have hmem : FSEntry.dir nm ch ∈ e := by
          have h1 : FSEntry.dir nm ch ∈
              ((e.filter (fun it => !matches_patterns it.name exclude)).filter
                (fun it => track_filter fs git (path ++ [it.name]))).filter
                  FSEntry.isDir := by
            rw [heqd]; exact List.mem_singleton.mpr rfl
          exact (List.mem_filter.mp ((List.mem_filter.mp
            ((List.mem_filter.mp h1).1)).1)).1
        exact ih (tsizeList ch) (by omega) (path ++ [nm]) ch (le_refl _)
          (wf_list_dir_child hwf hmem)
      · rw [collapse_stop (Bool.not_eq_true _ |>.mp hcond)]
        exact hwf

theorem list_isEmpty_length {α : Type} (l : List α) : l.isEmpty = (l.length == 0) := by
  cases l <;> rfl

theorem map_eq_of_forall₂_mem {α : Type} {S : α → α → Prop} {f g : α → List LineRec} :
    ∀ {l m : List α}, List.Forall₂ S l m →
    (∀ x ∈ l, ∀ y ∈ m, S x y → f x = g y) → l.map f = m.map g := by
  intro l m hF
  induction hF with
  | nil => intro _; rfl
  | cons hab hF2 ih =>
      rename_i a b l2 m2
      intro h
      simp only [List.map_cons]
      rw [h a (List.mem_cons_self _ _) b (List.mem_cons_self _ _) hab,
        ih (fun x hx y hy hS =>
          h x (List.mem_cons_of_mem _ hx) y (List.mem_cons_of_mem _ hy) hS)]

theorem eqv_filter_pair {fs₁ fs₂ : List FSEntry} {git : Option (List (List String))}
    {exclude : List String} {path : List String} {e₁ e₂ : List FSEntry}
    (htrack : ∀ p, track_filter fs₁ git p = track_filter fs₂ git p)
    (hEq : ∃ t, List.Forall₂ (fun a b => FSEntry.eqv a b = true) e₁ t ∧ t.Perm e₂) :
    ∃ t, List.Forall₂ (fun a b => FSEntry.eqv a b = true)
        ((e₁.filter (fun it => !matches_patterns it.name exclude)).filter
          (fun it => track_filter fs₁ git (path ++ [it.name]))) t ∧
      t.Perm ((e₂.filter (fun it => !matches_patterns it.name exclude)).filter
          (fun it => track_filter fs₂ git (path ++ [it.name]))) := by
  rcases hEq with ⟨t, hF, hP⟩
  refine ⟨(t.filter (fun it => !matches_patterns it.name exclude)).filter
    (fun it => track_filter fs₂ git (path ++ [it.name])), ?_, ?_⟩
  · apply forall₂_filter
    · exact forall₂_filter hF (fun a b hab => by rw [(eqv_elim hab).1])
    · intro a b hab
      rw [(eqv_elim hab).1, htrack]
  · exact (hP.filter _).filter _

theorem eqv_isDir_filter {l t : List FSEntry}
    (hF : List.Forall₂ (fun a b => FSEntry.eqv a b = true) l t) :
    List.Forall₂ (fun a b => FSEntry.eqv a b = true)
      (l.filter FSEntry.isDir) (t.filter FSEntry.isDir) :=
  forall₂_filter hF (fun a b hab => by
    rw [entry_isDir_eq_not_isFile, entry_isDir_eq_not_isFile, (eqv_elim hab).2.1])

theorem eqv_isFile_filter {l t : List FSEntry}
    (hF : List.Forall₂ (fun a b => FSEntry.eqv a b = true) l t) :
    List.Forall₂ (fun a b => FSEntry.eqv a b = true)
      (l.filter FSEntry.isFile) (t.filter FSEntry.isFile) :=
  forall₂_filter hF (fun a b hab => by rw [(eqv_elim hab).2.1])

theorem forall₂_singleton_left {R : FSEntry → FSEntry → Prop} {x : FSEntry}
    {m : List FSEntry} (h : List.Forall₂ R [x] m) : ∃ y, m = [y] ∧ R x y := by
  cases h with
  | cons hxy htail =>
      cases htail
      exact ⟨_, rfl, hxy⟩

theorem collapse_transport {fs₁ fs₂ : List FSEntry} {git : Option (List (List String))}
    {exclude : List String}
    (htrack : ∀ p, track_filter fs₁ git p = track_filter fs₂ git p) :
    ∀ (k : Nat) (path : List String) (e₁ e₂ : List FSEntry), tsizeList e₁ ≤ k →
    (∃ t, List.Forall₂ (fun a b => FSEntry.eqv a b = true) e₁ t ∧ t.Perm e₂) →
    (collapse_single_dirs fs₁ path e₁ git exclude).1 =
      (collapse_single_dirs fs₂ path e₂ git exclude).1 ∧
    (∃ t, List.Forall₂ (fun a b => FSEntry.eqv a b = true)
        (collapse_single_dirs fs₁ path e₁ git exclude).2 t ∧
      t.Perm (collapse_single_dirs fs₂ path e₂ git exclude).2) := by
  intro k
  induction k using Nat.strong_induction_on with
  | _ k ih =>
      intro path e₁ e₂ hk hEq
      rcases @eqv_filter_pair fs₁ fs₂ git exclude path e₁ e₂ htrack hEq
        with ⟨ti, hFi, hPi⟩
      have hDirs := eqv_isDir_filter hFi
      have hPDirs := hPi.filter FSEntry.isDir
      have hFiles := eqv_isFile_filter hFi
      have hPFiles := hPi.filter FSEntry.isFile
      have hlenF : (((e₁.filter (fun it => !matches_patterns it.name exclude)).filter
            (fun it => track_filter fs₁ git (path ++ [it.name]))).filter
              FSEntry.isFile).length =
          (((e₂.filter (fun it => !matches_patterns it.name exclude)).filter
            (fun it => track_filter fs₂ git (path ++ [it.name]))).filter
              FSEntry.isFile).length :=
        hFiles.length_eq.trans hPFiles.length_eq
      have hlenD : (((e₁.filter (fun it => !matches_patterns it.name exclude)).filter
            (fun it => track_filter fs₁ git (path ++ [it.name]))).filter
              FSEntry.isDir).length =
          (((e₂.filter (fun it => !matches_patterns it.name exclude)).filter
            (fun it => track_filter fs₂ git (path ++ [it.name]))).filter
              FSEntry.isDir).length :=
        hDirs.length_eq.trans hPDirs.length_eq
      by_cases hcond : single_dir_condition fs₁ path e₁ git exclude = true
      · rcases single_dir_condition_true_elim hcond with ⟨nm, ch, heqd, heqf⟩
        rw [heqd] at hDirs
        rcases forall₂_singleton_left hDirs with ⟨b, hti, hd1⟩
        rw [hti] at hPDirs
        rcases eqv_dir_elim hd1 with ⟨ch₂, hb, hch⟩
        subst hb
        have heqd₂ : ((e₂.filter (fun it => !matches_patterns it.name exclude)).filter
            (fun it => track_filter fs₂ git (path ++ [it.name]))).filter
              FSEntry.isDir = [FSEntry.dir nm ch₂] :=
          (List.singleton_perm.mp hPDirs).symm
        have heqf₂ : (((e₂.filter (fun it => !matches_patterns it.name exclude)).filter
            (fun it => track_filter fs₂ git (path ++ [it.name]))).filter
              FSEntry.isFile).isEmpty = true := by
          rw [list_isEmpty_length, ← hlenF]
          rw [list_isEmpty_length] at heqf
          exact heqf
        rw [collapse_descend heqd heqf, collapse_descend heqd₂ heqf₂]
        have hch2 := collapse_branch_tsize heqd
        exact ih (tsizeList ch) (by omega) (path ++ [nm]) ch ch₂ (le_refl _)
          (eqv_list_by_decomp hch)
      · have hcondF : single_dir_condition fs₁ path e₁ git exclude = false :=
          Bool.not_eq_true _ |>.mp hcond
        have hcond₂ : single_dir_condition fs₂ path e₂ git exclude = false := by
          have hsame : single_dir_condition fs₂ path e₂ git exclude =
              single_dir_condition fs₁ path e₁ git exclude := by
            simp only [single_dir_condition]
            rw [list_isEmpty_length, list_isEmpty_length, ← hlenD, ← hlenF]
          rw [hsame]
          exact hcondF
        rw [collapse_stop hcondF, collapse_stop hcond₂]
        exact ⟨rfl, hEq⟩

theorem build_transport {fs₁ fs₂ : List FSEntry} {git : Option (List (List String))}
    {exclude : List String}
    (htrack : ∀ p, track_filter fs₁ git p = track_filter fs₂ git p)
    (compact : Bool) (depth : Option Int) :
    ∀ (k : Nat) (path : List String) (e₁ e₂ : List FSEntry) (indent : String)
      (current_level : Int), tsizeList e₁ ≤ k → wf_list e₁ = true →
    (∃ t, List.Forall₂ (fun a b => FSEntry.eqv a b = true) e₁ t ∧ t.Perm e₂) →
    build_tree_entries fs₁ path e₁ indent exclude git compact depth current_level =
    build_tree_entries fs₂ path e₂ indent exclude git compact depth current_level := by
  intro k
  induction k using Nat.strong_induction_on with
  | _ k ih =>
      intro path e₁ e₂ indent current_level hk hwf hEq
      have hpe12 : (if compact then collapse_single_dirs fs₁ path e₁ git exclude
          else (path, e₁)).1 =
          (if compact then collapse_single_dirs fs₂ path e₂ git exclude
          else (path, e₂)).1 ∧
          (∃ t, List.Forall₂ (fun a b => FSEntry.eqv a b = true)
            (if compact then collapse_single_dirs fs₁ path e₁ git exclude
              else (path, e₁)).2 t ∧
            t.Perm (if compact then collapse_single_dirs fs₂ path e₂ git exclude
              else (path, e₂)).2) := by
        cases compact
        · simpa using hEq
        · simpa using collapse_transport htrack k path e₁ e₂ hk hEq
      have hwfpe : wf_list (if compact then collapse_single_dirs fs₁ path e₁ git exclude
          else (path, e₁)).2 = true := by
        cases compact
        · simpa using hwf
        · simpa using wf_collapse fs₁ git exclude k path e₁ hk hwf
      rcases hpe12 with ⟨hpe1, hpeE⟩
      have hitems := @surviving_transport fs₁ fs₂ git exclude
        (if compact then collapse_single_dirs fs₁ path e₁ git exclude else (path, e₁)).1
        (if compact then collapse_single_dirs fs₁ path e₁ git exclude else (path, e₁)).2
        (if compact then collapse_single_dirs fs₂ path e₂ git exclude else (path, e₂)).2
        htrack hpeE (wf_list_keys hwfpe)
      rw [build_tree_entries_unfold, build_tree_entries_unfold, ← hpe1,
        ← hitems.length_eq]
      apply congrArg List.flatten
      refine map_eq_of_forall₂_mem (forall₂_enumFrom hitems 0) ?_
      rintro ⟨i, a⟩ hx ⟨j, b⟩ hy hS
      have hij : i = j := hS.1
      subst hij
      have hab : FSEntry.eqv a b = true := hS.2
      have hmem0 : a ∈ (if compact then collapse_single_dirs fs₁ path e₁ git exclude
          else (path, e₁)).2 :=
        (mem_surviving_children (mem_of_mem_enum hx)).1
      have hsz1 := tsize_le_of_mem hmem0
      have hsz2 := pe_tsize_le fs₁ path e₁ git exclude compact
      split
      · rfl
      · cases a with
        | file nm s =>
            cases b with
            | dir m ch =>
                rcases eqv_elim hab with ⟨_, hkind, _⟩
                simp [FSEntry.isFile] at hkind
            | file m t =>
                rcases eqv_elim hab with ⟨hnm, _, hsz⟩
                have hnm2 : nm = m := hnm
                have hsz2 : s = t := by simpa [FSEntry.sizeOpt] using hsz
                subst hnm2
                subst hsz2
                rfl
        | dir n ch =>
            rcases eqv_dir_elim hab with ⟨ch₂, hb, hch⟩
            subst hb
            have hszd : FSEntry.tsize (FSEntry.dir n ch) = 1 + tsizeList ch := rfl
            apply congrArg
            exact ih (tsizeList ch) (by omega) _ ch ch₂ _ _ (le_refl _)
              (wf_list_dir_child hwfpe hmem0) (eqv_list_by_decomp hch)

/-- C8, counterexample: the claim that the output is invariant under every
permutation of every directory listing fails. The root listing holding the
files A.txt and a.txt has both entries sharing the sort key
(is_file, lowercased name); Python sorted is stable, so the tie keeps the
enumeration order, and the two enumeration orders of the same tree (eqv_list
holds between them) produce different line sequences. -/
theorem claim_C8_counterexample :
    eqv_list [FSEntry.file "A.txt" 1, FSEntry.file "a.txt" 2]
      [FSEntry.file "a.txt" 2, FSEntry.file "A.txt" 1] = true ∧
    build_tree_lines [FSEntry.file "A.txt" 1, FSEntry.file "a.txt" 2] []
      [FSEntry.file "A.txt" 1, FSEntry.file "a.txt" 2] "" [] none false true
      false none 0 ≠
    build_tree_lines [FSEntry.file "a.txt" 2, FSEntry.file "A.txt" 1] []
      [FSEntry.file "a.txt" 2, FSEntry.file "A.txt" 1] "" [] none false true
      false none 0 := by
  constructor
  · decide
  · decide

/-- C8 (amended): for every fixed filesystem tree in which every directory
listing has pairwise-distinct entry names and pairwise-distinct sort keys
(is_file, lowercased name) — the condition wf_list — build_tree_lines
produces the identical line sequence for any two enumerations of the tree,
i.e. for any second tree equal to it up to reordering of every directory
listing (eqv_list), under every configuration. -/
theorem claim_C8_amended (fs₁ fs₂ : List FSEntry) (path : List String)
    (indent : String) (exclude : List String) (git : Option (List (List String)))
    (color show_sizes compact : Bool) (depth : Option Int) (current_level : Int)
    (hwf : wf_list fs₁ = true) (heqv : eqv_list fs₁ fs₂ = true) :
    build_tree_lines fs₁ path fs₁ indent exclude git color show_sizes compact
      depth current_level =
    build_tree_lines fs₂ path fs₂ indent exclude git color show_sizes compact
      depth current_level := by
  have heqv2 : eqv_list_by FSEntry.eqv fs₁ fs₂ = true := by
    rw [← eqv_list_eq]
    exact heqv
  have htrack : ∀ p, track_filter fs₁ git p = track_filter fs₂ git p :=
    fun p => track_filter_transport heqv2 hwf git p
  unfold build_tree_lines
  apply congrArg
  exact build_transport htrack compact depth (tsizeList fs₁) path fs₁ fs₂ indent
    current_level (le_refl _) hwf (eqv_list_by_decomp heqv2)

/-- Witness for the amended C8: a concrete well-formed tree, rendered from two
different enumeration orders, yields the same lines. -/
theorem claim_C8_witness :
    wf_list [FSEntry.dir "b" [FSEntry.file "x.txt" 1], FSEntry.file "A.txt" 2] = true ∧
    eqv_list [FSEntry.dir "b" [FSEntry.file "x.txt" 1], FSEntry.file "A.txt" 2]
      [FSEntry.file "A.txt" 2, FSEntry.dir "b" [FSEntry.file "x.txt" 1]] = true ∧
    build_tree_lines [FSEntry.dir "b" [FSEntry.file "x.txt" 1], FSEntry.file "A.txt" 2]
        [] [FSEntry.dir "b" [FSEntry.file "x.txt" 1], FSEntry.file "A.txt" 2] "" []
        none false true false none 0 =
      build_tree_lines [FSEntry.file "A.txt" 2, FSEntry.dir "b" [FSEntry.file "x.txt" 1]]
        [] [FSEntry.file "A.txt" 2, FSEntry.dir "b" [FSEntry.file "x.txt" 1]] "" []
        none false true false none 0 :=
  ⟨by decide, by decide,
    claim_C8_amended
      [FSEntry.dir "b" [FSEntry.file "x.txt" 1], FSEntry.file "A.txt" 2]
      [FSEntry.file "A.txt" 2, FSEntry.dir "b" [FSEntry.file "x.txt" 1]]
      [] "" [] none false true false none 0 (by decide) (by decide)⟩
